import Mathlib

/-!
Verification of the point-dimension packing module (`pylas/point/packing.py`).

The module is a bit-field codec over columnar record batches: `unpack` extracts a
masked sub-field from a container column, `pack` validates and injects a sub-field
column into a container column (copy or in-place mode), and
`unpack_sub_fields` / `repack_sub_fields` orchestrate these over a whole record
batch driven by a point-format descriptor.

Modelling conventions:
* a column is a `List Nat` of element values together with the bit width `w` of its
  unsigned element dtype; every numpy store/`astype` into a `w`-bit column is an
  explicit `% 2 ^ w`;
* Python integers are arbitrary precision, so scalar arithmetic is on `Nat`
  (masks are nonnegative throughout the module);
* numpy in-place mutation is modeled by explicit state passing: a function that can
  mutate a caller-supplied buffer also returns the final contents of that buffer,
  and orchestration loops thread every buffer they touch;
* fallible operations return `Except`; the error cases mirror the exceptions the
  Python code can raise (`OverflowError`, its re-wrapped form, numpy's reduction
  error on empty `.max()`, and `KeyError` for a missing structured-array field).
-/

namespace Pylas

/-! ## Bit-length and the least significant bit -/

/-- Fuel-driven evaluator for Python's `int.bit_length`: `bitLengthAux fuel n`
computes the bit length of `n` provided `n ≤ fuel`.  The fuel makes the
definition structurally recursive, hence kernel-computable. -/
def bitLengthAux : Nat → Nat → Nat
  | 0, _ => 0
  | fuel + 1, n => if n = 0 then 0 else bitLengthAux fuel (n / 2) + 1

/-- Python `n.bit_length()` for a nonnegative `n`: the number of bits needed to
represent `n`, with `bit_length 0 = 0`. -/
def bit_length (n : Nat) : Nat := bitLengthAux n n

/-- Source `least_significant_bit(val)`, packing.py line 9:
`return (val & -val).bit_length() - 1`.

`val` is a nonnegative Python integer (a mask).  In two's complement,
`val & -val` isolates the lowest set bit of `val`; for `0 ≤ val < 2 ^ L` it
equals the `Nat` computation `val &&& (2 ^ L - val)`, and we take `L = val`
(which always satisfies `val < 2 ^ val`).  The subtraction is on `Int`, exactly
as in Python: for `val = 0` the result is `0.bit_length() - 1 = -1`. -/
def least_significant_bit (val : Nat) : Int :=
  (bit_length (val &&& (2 ^ val - val)) : Int) - 1

/-- The predicate <<`k` is the index of the lowest set bit of `m`>>. -/
def IsLsbIdx (m k : Nat) : Prop :=
  m.testBit k = true ∧ ∀ j, j < k → m.testBit j = false

instance (m k : Nat) : Decidable (IsLsbIdx m k) := by
  unfold IsLsbIdx; infer_instance

theorem bitLengthAux_zero (fuel : Nat) : bitLengthAux fuel 0 = 0 := by
  cases fuel <;> simp [bitLengthAux]

theorem bitLengthAux_two_pow (k : Nat) :
    ∀ fuel, 2 ^ k ≤ fuel → bitLengthAux fuel (2 ^ k) = k + 1 := by
  induction k with
  | zero =>
    intro fuel hf
    have h1 : 1 ≤ fuel := by simpa using hf
    obtain ⟨f, rfl⟩ : ∃ f, fuel = f + 1 := ⟨fuel - 1, by omega⟩
    simp [bitLengthAux, bitLengthAux_zero]
  | succ k ih =>
    intro fuel hf
    have hpos : 0 < 2 ^ (k + 1) := Nat.pos_pow_of_pos _ (by omega)
    obtain ⟨f, rfl⟩ : ∃ f, fuel = f + 1 := ⟨fuel - 1, by omega⟩
    have hne : 2 ^ (k + 1) ≠ 0 := by omega
    have hdiv : 2 ^ (k + 1) / 2 = 2 ^ k := by
      rw [Nat.pow_succ, Nat.mul_div_cancel _ (by omega)]
    have hk : 2 ^ k ≤ f := by
      have h1 : 2 ^ k + 1 ≤ 2 ^ (k + 1) := by
        have := Nat.pos_pow_of_pos k (show 0 < 2 by omega)
        rw [Nat.pow_succ]; omega
      omega
    simp only [bitLengthAux, hne, if_false, hdiv, ih f hk]

theorem bit_length_two_pow (k : Nat) : bit_length (2 ^ k) = k + 1 :=
  bitLengthAux_two_pow k _ (Nat.le_refl _)

theorem lt_two_pow_bitLengthAux :
    ∀ fuel n : Nat, n ≤ fuel → n < 2 ^ bitLengthAux fuel n := by
  intro fuel
  induction fuel with
  | zero =>
    intro n hn
    have hn0 : n = 0 := by omega
    subst hn0
    simp [bitLengthAux]
  | succ f ih =>
    intro n hn
    by_cases h0 : n = 0
    · subst h0
      simp [bitLengthAux]
    · have hstep : bitLengthAux (f + 1) n = bitLengthAux f (n / 2) + 1 := by
        simp [bitLengthAux, h0]
      have hdiv : n / 2 ≤ f := by omega
      have hih := ih (n / 2) hdiv
      rw [hstep, Nat.pow_succ]
      omega

/-- Upper bound matching Python's `int.bit_length`: `n < 2 ^ n.bit_length()`. -/
theorem lt_two_pow_bit_length (n : Nat) : n < 2 ^ bit_length n :=
  lt_two_pow_bitLengthAux n n (Nat.le_refl n)

/-- Lowest-set-bit facts: if `k` is the index of the lowest set bit of `m`,
then `m` decomposes as `2 ^ (k+1) * (m / 2 ^ (k+1)) + 2 ^ k`. -/
theorem mod_two_pow_succ_of_isLsbIdx {m k : Nat} (h : IsLsbIdx m k) :
    m % 2 ^ (k + 1) = 2 ^ k := by
  apply Nat.eq_of_testBit_eq
  intro i
  rw [Nat.testBit_mod_two_pow, Nat.testBit_two_pow]
  rcases Nat.lt_trichotomy i k with hik | hik | hik
  · have h1 : m.testBit i = false := h.2 i hik
    have h2 : k ≠ i := by omega
    simp [h1, h2]
  · subst hik
    simp [h.1, Nat.lt_succ_self]
  · have h2 : ¬ i < k + 1 := by omega
    have h3 : k ≠ i := by omega
    simp [h2, h3]

theorem lt_of_isLsbIdx {m k L : Nat} (h : IsLsbIdx m k) (hL : m < 2 ^ L) :
    k < L := by
  have h1 : 2 ^ k ≤ m := Nat.testBit_implies_ge h.1
  have h2 : 2 ^ k < 2 ^ L := Nat.lt_of_le_of_lt h1 hL
  exact (Nat.pow_lt_pow_iff_right (by omega)).mp h2

theorem pos_of_isLsbIdx {m k : Nat} (h : IsLsbIdx m k) : 0 < m := by
  have h1 : 2 ^ k ≤ m := Nat.testBit_implies_ge h.1
  have := Nat.pos_pow_of_pos k (show 0 < 2 by omega)
  omega

/-- Two's complement isolation of the lowest set bit: for `m < 2 ^ L` with lowest
set bit `k`, the `Nat` rendering `m &&& (2 ^ L - m)` of `m & -m` equals `2 ^ k`. -/
theorem and_two_pow_sub_eq_two_pow {m k L : Nat} (h : IsLsbIdx m k)
    (hL : m < 2 ^ L) : m &&& (2 ^ L - m) = 2 ^ k := by
  have hpos : 0 < m := pos_of_isLsbIdx h
  have hkL : k < L := lt_of_isLsbIdx h hL
  -- decompose m = 2^(k+1) * q + 2^k
  have hq := Nat.div_add_mod m (2 ^ (k + 1))
  set q := m / 2 ^ (k + 1) with hqdef
  have hm : m = 2 ^ (k + 1) * q + 2 ^ k := by
    rw [mod_two_pow_succ_of_isLsbIdx h] at hq; omega
  have hk_lt : (2 : Nat) ^ k < 2 ^ (k + 1) := by
    have : (2 : Nat) ^ (k + 1) = 2 ^ k * 2 := by rw [Nat.pow_succ]
    have := Nat.pos_pow_of_pos k (show 0 < 2 by omega)
    omega
  have hkpos : 0 < (2 : Nat) ^ k := Nat.pos_pow_of_pos _ (by omega)
  -- m - 1 = 2^(k+1) * q + (2^k - 1)
  have hm1 : m - 1 = 2 ^ (k + 1) * q + (2 ^ k - 1) := by omega
  have hsub : 2 ^ L - m = 2 ^ L - ((m - 1) + 1) := by omega
  have hm1_lt : m - 1 < 2 ^ L := by omega
  apply Nat.eq_of_testBit_eq
  intro i
  rw [Nat.testBit_and, hsub, Nat.testBit_two_pow_sub_succ hm1_lt,
    Nat.testBit_two_pow]
  have htm : m.testBit i = if i < k + 1 then ((2 : Nat) ^ k).testBit i
      else q.testBit (i - (k + 1)) := by
    rw [hm, Nat.testBit_mul_pow_two_add q hk_lt]
  have htm1 : (m - 1).testBit i = if i < k + 1 then ((2 : Nat) ^ k - 1).testBit i
      else q.testBit (i - (k + 1)) := by
    rw [hm1, Nat.testBit_mul_pow_two_add q (by omega)]
  rcases Nat.lt_trichotomy i k with hik | hik | hik
  · have h1 : m.testBit i = false := h.2 i hik
    have h2 : k ≠ i := by omega
    simp [h1, h2]
  · subst hik
    have h1 : (m - 1).testBit i = false := by
      rw [htm1, if_pos (Nat.lt_succ_self i)]
      simp [Nat.testBit_two_pow_sub_one]
    simp [h.1, h1, hkL]
  · have hne : ¬ i < k + 1 := by omega
    have h2 : k ≠ i := by omega
    rw [htm, htm1, if_neg hne, if_neg hne]
    cases hq : q.testBit (i - (k + 1)) <;> simp [h2]

/-- Bridge between the claims' <<index of the lowest set bit>> and the source
formula `(val & -val).bit_length() - 1`. -/
theorem least_significant_bit_eq {m k : Nat} (h : IsLsbIdx m k) :
    least_significant_bit m = (k : Int) := by
  have hlt : m < 2 ^ m := Nat.lt_two_pow m
  unfold least_significant_bit
  rw [and_two_pow_sub_eq_two_pow h hlt, bit_length_two_pow]
  push_cast
  omega

theorem least_significant_bit_toNat {m k : Nat} (h : IsLsbIdx m k) :
    (least_significant_bit m).toNat = k := by
  rw [least_significant_bit_eq h]; rfl

/-- Existence: a nonzero value has a lowest set bit, and it is the one the source
formula computes. -/
theorem isLsbIdx_of_ne_zero {m : Nat} (hm : m ≠ 0) :
    IsLsbIdx m ((least_significant_bit m).toNat) := by
  have hex : ∃ i, m.testBit i := Nat.ne_zero_implies_bit_true hm
  classical
  have hk : IsLsbIdx m (Nat.find hex) := by
    refine ⟨Nat.find_spec hex, fun j hj => ?_⟩
    have := Nat.find_min hex hj
    simpa using this
  rwa [least_significant_bit_toNat hk]

/-! ## Errors, column reduction, and the two codec primitives -/

/-- Exceptions raised by the packing module:
* `overflow v mx` — `OverflowError("value (v) is greater than allowed (max: mx)")`
  raised by `pack`;
* `repackOverflow sub dim v mx` — the same error re-raised by
  `_repack_composed_dim` as `OverflowError("Error repacking sub into dim: ...")`,
  with the original offending value and allowed maximum preserved;
* `emptyReduction` — numpy's `ValueError` for `.max()` on a zero-size column;
* `keyError n` — lookup of a field absent from a structured array. -/
inductive PackingError where
  | overflow (offending maxAllowed : Nat)
  | repackOverflow (subName dimName : String) (offending maxAllowed : Nat)
  | emptyReduction
  | keyError (name : String)
deriving Repr, DecidableEq

instance {ε α : Type} [DecidableEq ε] [DecidableEq α] :
    DecidableEq (Except ε α) := fun x y =>
  match x, y with
  | .ok a, .ok b =>
    if h : a = b then .isTrue (by rw [h])
    else .isFalse (fun hc => h (Except.ok.inj hc))
  | .ok _, .error _ => .isFalse (fun hc => Except.noConfusion hc)
  | .error _, .ok _ => .isFalse (fun hc => Except.noConfusion hc)
  | .error e, .error f =>
    if h : e = f then .isTrue (by rw [h])
    else .isFalse (fun hc => h (Except.error.inj hc))

/-- Numpy `column.max()`: the maximum reduction over a column.  On an empty
column numpy raises (`zero-size array to reduction operation maximum`), so the
result is an `Option`. -/
def listMax : List Nat → Option Nat
  | [] => none
  | x :: xs => some (xs.foldl max x)

/-- Source `unpack(source_array, mask, dtype=np.uint8)`, packing.py lines 12-27:

    lsb = least_significant_bit(mask)
    return ((source_array & mask) >> lsb).astype(dtype)

`dtype` is the bit width of the target unsigned element type (8 for the
`np.uint8` default); `astype` truncates to that width.  For a zero mask the
Python shift amount would be `-1` (undefined for numpy data); every theorem
below uses a nonzero mask. -/
def unpack (source_array : List Nat) (mask : Nat) (dtype : Nat := 8) :
    List Nat :=
  let lsb := (least_significant_bit mask).toNat
  source_array.map (fun s => ((s &&& mask) >>> lsb) % 2 ^ dtype)

/-- Two's-complement `~mask` as seen by a `w`-bit unsigned element: Python's
`~mask` is `-mask - 1`, whose low `w` bits are the bitwise complement of
`mask`'s low `w` bits, i.e. `(2 ^ w - 1) ^^^ (mask &&& (2 ^ w - 1))`.  Since a
`w`-bit element has no bits at or above position `w`, `a & ~mask` equals
`a &&& npNot w mask` for every element value `a < 2 ^ w` (and the store into the
column truncates to `w` bits regardless). -/
def npNot (w mask : Nat) : Nat := (2 ^ w - 1) ^^^ (mask &&& (2 ^ w - 1))

/-- Source `pack(array, sub_field_array, mask, inplace=False)`, packing.py
lines 30-63:

    lsb = least_significant_bit(mask)
    max_value = int(mask >> lsb)
    if sub_field_array.max() > max_value:
        raise OverflowError("value ({}) is greater than allowed (max: {})"...)
    if inplace:
        array[:] = array & ~mask
        array[:] = array | ((sub_field_array << lsb) & mask).astype(array.dtype)
    else:
        array = array & ~mask
        return array | ((sub_field_array << lsb) & mask).astype(array.dtype)

`w` is the bit width of `array`'s unsigned element dtype: each `astype` and each
in-place store truncates with `% 2 ^ w`, and the two's-complement `array & ~mask`
seen by a `w`-bit element is `array &&& ((2 ^ w - 1) ^^^ (mask &&& (2 ^ w - 1)))`
(the complement of `mask` within the element width).  The first component of the
result is the returned value — `some` new column in copy mode, `none` (Python
`None`) in in-place mode — and the second component is the final contents of the
caller's `array` buffer, which only the in-place branch mutates.  Validation
precedes both branches, exactly as in the source, so both error cases leave the
buffer untouched.  In copy mode `array = array & ~mask` rebinds the local name
to a fresh column and the caller's buffer is never written.

One precision caveat: numpy evaluates `sub_field_array << lsb` in the
sub-field column's element type, wrapping there when `lsb` plus the value's
width exceeds that type, while this definition computes the shift at unbounded
precision.  The wrapped operand is still confined to `mask` by the subsequent
`&`, so outside-mask bits, both error paths, mode equivalence and
disjoint-mask commutation are unaffected; `packStepNp` below models the
wrapped store, and `pack_store_wrap_agrees` / `pack_inplace_np_ok` prove the
two semantics store identical buffers whenever the shift amount plus the
mask's payload width fit the sub-field element width — the condition the
round-trip development (`subFieldWF`) requires. -/
def pack (array sub_field_array : List Nat) (mask : Nat) (w : Nat)
    (inplace : Bool) : Except PackingError (Option (List Nat)) × List Nat :=
  let lsb := (least_significant_bit mask).toNat
  let max_value := mask >>> lsb
  match listMax sub_field_array with
  | none => (.error .emptyReduction, array)
  | some mx =>
    if mx > max_value then
      (.error (.overflow mx max_value), array)
    else
      let notMask := npNot w mask
      if inplace then
        let cleared := array.map (fun a => (a &&& notMask) % 2 ^ w)
        (.ok none,
         List.zipWith (fun a v => (a ||| ((v <<< lsb) &&& mask) % 2 ^ w) % 2 ^ w)
           cleared sub_field_array)
      else
        let cleared := array.map (fun a => a &&& notMask)
        (.ok (some (List.zipWith
            (fun a v => a ||| ((v <<< lsb) &&& mask) % 2 ^ w)
            cleared sub_field_array)),
         array)

/-! ### Basic facts about `listMax` -/

theorem foldl_max_spec (xs : List Nat) : ∀ x : Nat,
    (xs.foldl max x = x ∨ xs.foldl max x ∈ xs) ∧ x ≤ xs.foldl max x ∧
      ∀ v ∈ xs, v ≤ xs.foldl max x := by
  induction xs with
  | nil => intro x; simp
  | cons y ys ih =>
    intro x
    obtain ⟨hmem, hle, hall⟩ := ih (max x y)
    simp only [List.foldl_cons]
    refine ⟨?_, ?_, ?_⟩
    · rcases hmem with hmem | hmem
      · rcases Nat.le_total x y with hxy | hxy
        · right
          rw [hmem, Nat.max_eq_right hxy]
          exact List.mem_cons_self y ys
        · left
          rw [hmem, Nat.max_eq_left hxy]
      · right
        exact List.mem_cons_of_mem y hmem
    · exact Nat.le_trans (Nat.le_max_left x y) hle
    · intro v hv
      rcases List.mem_cons.mp hv with h1 | hv
      · rw [h1]
        exact Nat.le_trans (Nat.le_max_right x y) hle
      · exact hall v hv

theorem listMax_mem {l : List Nat} {m : Nat} (h : listMax l = some m) : m ∈ l := by
  match l with
  | [] => simp [listMax] at h
  | x :: xs =>
    simp only [listMax, Option.some.injEq] at h
    obtain ⟨hmem, -, -⟩ := foldl_max_spec xs x
    subst h
    rcases hmem with hmem | hmem
    · rw [hmem]
      exact List.mem_cons_self x xs
    · exact List.mem_cons_of_mem x hmem

theorem listMax_le {l : List Nat} {m : Nat} (h : listMax l = some m) :
    ∀ v ∈ l, v ≤ m := by
  match l with
  | [] => simp [listMax] at h
  | x :: xs =>
    simp only [listMax, Option.some.injEq] at h
    obtain ⟨-, hle, hall⟩ := foldl_max_spec xs x
    subst h
    intro v hv
    rcases List.mem_cons.mp hv with rfl | hv
    · exact hle
    · exact hall v hv

theorem listMax_eq_none {l : List Nat} : listMax l = none ↔ l = [] := by
  cases l <;> simp [listMax]

theorem listMax_of_nonempty {l : List Nat} (h : l ≠ []) :
    ∃ m, listMax l = some m := by
  cases hl : listMax l
  · exact absurd (listMax_eq_none.mp hl) h
  · exact ⟨_, rfl⟩

/-! ### Bit-level helpers for `pack` -/

/-- Bits of the in-width complement `~mask`: set exactly at the positions below
`w` where `mask` is clear. -/
theorem testBit_npNot (w mask i : Nat) :
    (npNot w mask).testBit i = (decide (i < w) && !mask.testBit i) := by
  unfold npNot
  rw [Nat.testBit_xor, Nat.testBit_and, Nat.testBit_two_pow_sub_one]
  cases h : mask.testBit i <;> cases hw : decide (i < w) <;> simp

theorem npNot_lt (w mask : Nat) : npNot w mask < 2 ^ w := by
  have h1 : 2 ^ w - 1 < 2 ^ w := by
    have := Nat.pos_pow_of_pos w (show 0 < 2 by omega)
    omega
  exact Nat.xor_lt_two_pow h1 (Nat.and_lt_two_pow mask h1)

theorem and_npNot_lt (w mask a : Nat) : a &&& npNot w mask < 2 ^ w :=
  Nat.and_lt_two_pow a (npNot_lt w mask)

/-- One element of a `pack` store: clear the masked bits of the destination
element `a`, then OR in the shifted-and-masked sub-field element `v`, truncating
to the element width at each store exactly as the in-place branch does. -/
def packStep (w mask lsb a v : Nat) : Nat :=
  ((a &&& npNot w mask) % 2 ^ w ||| ((v <<< lsb) &&& mask) % 2 ^ w) % 2 ^ w

/-- All three `% 2 ^ w` truncations in `packStep` are inert: clearing already
bounds the destination element and the OR of two `w`-bit values is `w`-bit. -/
theorem packStep_eq (w mask lsb a v : Nat) :
    packStep w mask lsb a v = (a &&& npNot w mask) ||| ((v <<< lsb) &&& mask) % 2 ^ w := by
  unfold packStep
  have h1 : a &&& npNot w mask < 2 ^ w := and_npNot_lt w mask a
  have hw : 0 < 2 ^ w := Nat.pos_pow_of_pos _ (by omega)
  rw [Nat.mod_eq_of_lt h1]
  exact Nat.mod_eq_of_lt
    (Nat.or_lt_two_pow h1 (Nat.mod_lt _ hw))

theorem packStep_lt (w mask lsb a v : Nat) : packStep w mask lsb a v < 2 ^ w := by
  rw [packStep_eq]
  have hw : 0 < 2 ^ w := Nat.pos_pow_of_pos _ (by omega)
  exact Nat.or_lt_two_pow (and_npNot_lt w mask a) (Nat.mod_lt _ hw)

/-- Bits outside the mask after one packed store: exactly the destination
element's bits (within the element width). -/
theorem packStep_testBit_outside {mask k : Nat} (w lsb a v : Nat)
    (hk : mask.testBit k = false) (ha : a < 2 ^ w) :
    (packStep w mask lsb a v).testBit k = a.testBit k := by
  rw [packStep_eq, Nat.testBit_or, Nat.testBit_and, testBit_npNot,
    Nat.testBit_mod_two_pow, Nat.testBit_and, hk]
  by_cases hkw : k < w
  · simp [hkw]
  · have h1 : a.testBit k = false := by
      apply Nat.testBit_lt_two_pow
      exact Nat.lt_of_lt_of_le ha (Nat.pow_le_pow_right (by omega) (by omega))
    simp [hkw, h1]

/-- Bits inside the mask after one packed store (for masks that fit the element
width): exactly the shifted sub-field element's bits. -/
theorem packStep_testBit_inside {mask k : Nat} (w lsb a v : Nat)
    (hk : mask.testBit k = true) (hmask : mask < 2 ^ w) :
    (packStep w mask lsb a v).testBit k = (v <<< lsb).testBit k := by
  have hkw : k < w := by
    by_contra hkw
    have : mask.testBit k = false := by
      apply Nat.testBit_lt_two_pow
      exact Nat.lt_of_lt_of_le hmask (Nat.pow_le_pow_right (by omega) (by omega))
    simp [this] at hk
  rw [packStep_eq, Nat.testBit_or, Nat.testBit_and, testBit_npNot,
    Nat.testBit_mod_two_pow, Nat.testBit_and, hk]
  simp [hkw]

/-- Success case of `pack` in in-place mode: the final buffer is the
element-wise `packStep` of the destination and sub-field columns. -/
theorem pack_inplace_ok {sub_field_array : List Nat} {mask : Nat} {mx : Nat}
    (array : List Nat) (w : Nat)
    (hmax : listMax sub_field_array = some mx)
    (hle : mx ≤ mask >>> (least_significant_bit mask).toNat) :
    pack array sub_field_array mask w true =
      (.ok none,
       List.zipWith (packStep w mask ((least_significant_bit mask).toNat))
         array sub_field_array) := by
  unfold pack
  rw [hmax]
  simp only [Nat.not_lt.mpr hle, if_false, if_true, gt_iff_lt, if_neg (Nat.not_lt.mpr hle)]
  rw [List.zipWith_map_left]
  rfl

/-- Success case of `pack` in copy mode. -/
theorem pack_copy_ok {sub_field_array : List Nat} {mask : Nat} {mx : Nat}
    (array : List Nat) (w : Nat)
    (hmax : listMax sub_field_array = some mx)
    (hle : mx ≤ mask >>> (least_significant_bit mask).toNat) :
    pack array sub_field_array mask w false =
      (.ok (some (List.zipWith
         (fun a v => (a &&& npNot w mask) |||
            ((v <<< (least_significant_bit mask).toNat) &&& mask) % 2 ^ w)
         array sub_field_array)),
       array) := by
  unfold pack
  rw [hmax]
  simp only [gt_iff_lt, if_neg (Nat.not_lt.mpr hle), if_false, Bool.false_eq_true]
  rw [List.zipWith_map_left]

/-- The two success branches store the same element values. -/
theorem pack_copy_eq_packStep (array sub_field_array : List Nat) (mask w : Nat) :
    List.zipWith
        (fun a v => (a &&& npNot w mask) |||
           ((v <<< (least_significant_bit mask).toNat) &&& mask) % 2 ^ w)
        array sub_field_array =
      List.zipWith (packStep w mask ((least_significant_bit mask).toNat))
        array sub_field_array := by
  have h : (fun a v => (a &&& npNot w mask) |||
      ((v <<< (least_significant_bit mask).toNat) &&& mask) % 2 ^ w) =
      packStep w mask ((least_significant_bit mask).toNat) := by
    funext a v
    rw [packStep_eq]
  rw [h]

/-- Failure cases of `pack`: the overflow branch and the empty-reduction branch
both leave the destination buffer untouched and produce the error. -/
theorem pack_overflow_cases {sub_field_array : List Nat} {mask : Nat} {mx : Nat}
    (array : List Nat) (w : Nat) (inplace : Bool)
    (hmax : listMax sub_field_array = some mx)
    (hgt : mask >>> (least_significant_bit mask).toNat < mx) :
    pack array sub_field_array mask w inplace =
      (.error (.overflow mx (mask >>> (least_significant_bit mask).toNat)), array) := by
  unfold pack
  rw [hmax]
  simp [hgt]

theorem pack_empty_cases {sub_field_array : List Nat} {mask : Nat}
    (array : List Nat) (w : Nat) (inplace : Bool)
    (hmax : listMax sub_field_array = none) :
    pack array sub_field_array mask w inplace = (.error .emptyReduction, array) := by
  unfold pack
  rw [hmax]

/-- Elementwise commutation of two packed stores with disjoint masks. -/
theorem packStep_comm {maskA maskB : Nat} (w lA lB a vA vB : Nat)
    (hdisj : maskA &&& maskB = 0) :
    packStep w maskB lB (packStep w maskA lA a vA) vB =
      packStep w maskA lA (packStep w maskB lB a vB) vA := by
  apply Nat.eq_of_testBit_eq
  intro k
  have h : (maskA.testBit k && maskB.testBit k) = false := by
    have h0 := congrArg (fun n => n.testBit k) hdisj
    simpa [Nat.testBit_and] using h0
  rw [packStep_eq, packStep_eq, packStep_eq, packStep_eq]
  simp only [Nat.testBit_or, Nat.testBit_and, testBit_npNot, Nat.testBit_mod_two_pow]
  cases h1 : a.testBit k <;> cases h2 : maskA.testBit k <;> cases h3 : maskB.testBit k <;>
    cases h4 : (vA <<< lA).testBit k <;> cases h5 : (vB <<< lB).testBit k <;>
    cases h6 : decide (k < w) <;> simp_all

/-- List-level commutation of two elementwise store passes. -/
theorem zipWith_comm_of_step {F G : Nat → Nat → Nat}
    (h : ∀ a x y, G (F a x) y = F (G a y) x) :
    ∀ l la lb : List Nat,
      List.zipWith G (List.zipWith F l la) lb =
        List.zipWith F (List.zipWith G l lb) la := by
  intro l
  induction l with
  | nil =>
    intro la lb
    simp
  | cons a l ih =>
    intro la lb
    cases la with
    | nil => cases lb <;> simp
    | cons x la =>
      cases lb with
      | nil => simp
      | cons y lb => simp [h a x y, ih la lb]

/-! ## Claims about the scalar codec -/

/-- C5 counterexample: on the zero mask, `least_significant_bit` does not fail
with any error; it totalizes Python's `(0 & -0).bit_length() - 1` and returns
the sentinel `-1`.  No `InvalidMask`-style exception exists anywhere in the
module. -/
theorem least_significant_bit_zero_counterexample :
    least_significant_bit 0 = -1 := by decide

/-- C5 (amended): for every nonzero mask, `least_significant_bit` returns the
index of the mask's lowest set bit; for the zero mask it raises no error and
returns `-1`. -/
theorem least_significant_bit_spec :
    (∀ m k : Nat, m ≠ 0 → IsLsbIdx m k → least_significant_bit m = (k : Int)) ∧
    least_significant_bit 0 = -1 := by
  constructor
  · intro m k _ h
    exact least_significant_bit_eq h
  · decide

theorem least_significant_bit_spec_witness :
    least_significant_bit 0b11110000 = 4 :=
  least_significant_bit_spec.1 0b11110000 4 (by decide) (by decide)

/-- C3: `unpack`, for every source column, nonzero mask with lowest-set-bit
index `shift`, and target element width, returns a new column of the same
length with `result[i] = ((source[i] &&& mask) >>> shift)` cast to the target
width, for every index `i` (the source column is not written to — `unpack` is a
pure map); concretely mask `0b00001111` extracts `5` from `0b10110101` and mask
`0b11110000` extracts `11`. -/
theorem unpack_extracts_masked_bits (source_array : List Nat)
    (mask dtype shift : Nat) (_hmask : mask ≠ 0) (hshift : IsLsbIdx mask shift) :
    ((unpack source_array mask dtype).length = source_array.length ∧
     ∀ i (hi : i < (unpack source_array mask dtype).length)
       (hs : i < source_array.length),
       (unpack source_array mask dtype).get ⟨i, hi⟩ =
         ((source_array.get ⟨i, hs⟩ &&& mask) >>> shift) % 2 ^ dtype) ∧
    unpack [0b10110101] 0b00001111 = [5] ∧
    unpack [0b10110101] 0b11110000 = [11] := by
  refine ⟨⟨?_, ?_⟩, by decide, by decide⟩
  · simp [unpack]
  · intro i hi hs
    have hlsb := least_significant_bit_toNat hshift
    simp [unpack, List.get_eq_getElem, List.getElem_map, hlsb]

theorem unpack_extracts_masked_bits_witness :
    (unpack [0b10110101] 0b00001111 8).length = 1 ∧
    unpack [0b10110101] 0b00001111 8 = [5] :=
  ⟨(unpack_extracts_masked_bits [0b10110101] 0b00001111 8 0
      (by decide) (by decide)).1.1,
   (unpack_extracts_masked_bits [0b10110101] 0b00001111 8 0
      (by decide) (by decide)).2.1⟩

/-- C1: `pack` validates before any mutation.  If any element of the sub-field
column exceeds `max_allowed = mask >>> shift`, the call fails with an
`OverflowError` carrying the offending value and `max_allowed`, and the
destination buffer (the second component, which models the caller's buffer
after the call) is bit-identical to its pre-call state, in both copy and
in-place modes. -/
theorem pack_range_violation_atomic (array sub_field_array : List Nat)
    (mask w shift v : Nat) (inplace : Bool)
    (hshift : IsLsbIdx mask shift) (hv : v ∈ sub_field_array)
    (hgt : mask >>> shift < v) :
    ∃ off, pack array sub_field_array mask w inplace =
        (.error (.overflow off (mask >>> shift)), array) ∧
      mask >>> shift < off ∧ off ∈ sub_field_array := by
  have hne : sub_field_array ≠ [] := by
    intro h
    subst h
    cases hv
  obtain ⟨mx, hmx⟩ := listMax_of_nonempty hne
  have hvle : v ≤ mx := listMax_le hmx v hv
  have hoff : mask >>> shift < mx := lt_of_lt_of_le hgt hvle
  have hlsb : (least_significant_bit mask).toNat = shift :=
    least_significant_bit_toNat hshift
  refine ⟨mx, ?_, hoff, listMax_mem hmx⟩
  have h2 := pack_overflow_cases array w inplace hmx (by rw [hlsb]; exact hoff)
  rw [hlsb] at h2
  exact h2

theorem pack_range_violation_atomic_witness :
    (∃ off, pack [0] [16] 0b00001111 8 true =
        (.error (.overflow off 15), [0]) ∧ 15 < off ∧ off ∈ [16]) ∧
    (∃ off, pack [0] [16] 0b00001111 8 false =
        (.error (.overflow off 15), [0]) ∧ 15 < off ∧ off ∈ [16]) :=
  ⟨pack_range_violation_atomic [0] [16] 0b00001111 8 0 16 true
      (by decide) (by decide) (by decide),
   pack_range_violation_atomic [0] [16] 0b00001111 8 0 16 false
      (by decide) (by decide) (by decide)⟩

/-- C10: the overflow check is a single whole-column maximum reduction.  With
`listMax` the column maximum, `pack` fails if and only if the maximum exceeds
`max_allowed = mask >>> shift`, and the reported offending value is exactly
that maximum — the largest offender, not the first in index order. -/
theorem pack_overflow_reports_column_max (array sub : List Nat)
    (mask w shift m : Nat) (inplace : Bool)
    (hshift : IsLsbIdx mask shift) (hm : listMax sub = some m) :
    (mask >>> shift < m →
       pack array sub mask w inplace =
           (.error (.overflow m (mask >>> shift)), array) ∧
         m ∈ sub ∧ ∀ v ∈ sub, v ≤ m) ∧
    (m ≤ mask >>> shift → ∃ r, (pack array sub mask w inplace).1 = .ok r) := by
  have hlsb : (least_significant_bit mask).toNat = shift :=
    least_significant_bit_toNat hshift
  constructor
  · intro hgt
    have h2 := pack_overflow_cases array w inplace hm (by rw [hlsb]; exact hgt)
    rw [hlsb] at h2
    exact ⟨h2, listMax_mem hm, listMax_le hm⟩
  · intro hle
    cases inplace
    · rw [pack_copy_ok array w hm (by rw [hlsb]; exact hle)]
      exact ⟨_, rfl⟩
    · rw [pack_inplace_ok array w hm (by rw [hlsb]; exact hle)]
      exact ⟨_, rfl⟩

theorem pack_overflow_reports_column_max_witness :
    pack [0] [20, 30] 0b00001111 8 true = (.error (.overflow 30 15), [0]) ∧
    30 ∈ [20, 30] :=
  have h := (pack_overflow_reports_column_max [0] [20, 30] 0b00001111 8 0 30 true
      (by decide) (by decide)).1 (by decide)
  ⟨h.1, h.2.1⟩

/-- C4: on every successful `pack` call, every destination element keeps its
bits outside the mask exactly — only masked bits are ever altered, in both copy
and in-place modes. -/
theorem pack_alters_only_masked_bits (array sub : List Nat) (mask w k i : Nat)
    (_hmask : mask ≠ 0) (hbound : ∀ a ∈ array, a < 2 ^ w)
    (hk : mask.testBit k = false) :
    (∀ out, (pack array sub mask w false).1 = .ok (some out) →
      ∀ (hi : i < out.length) (hj : i < array.length),
        (out.get ⟨i, hi⟩).testBit k = (array.get ⟨i, hj⟩).testBit k) ∧
    ((pack array sub mask w true).1 = .ok none →
      ∀ (hi : i < (pack array sub mask w true).2.length)
        (hj : i < array.length),
        ((pack array sub mask w true).2.get ⟨i, hi⟩).testBit k =
          (array.get ⟨i, hj⟩).testBit k) := by
  cases hlm : listMax sub with
  | none =>
    rw [pack_empty_cases array w false hlm, pack_empty_cases array w true hlm]
    constructor
    · intro out hout
      simp at hout
    · intro hout
      simp at hout
  | some mx =>
    by_cases hgt : mask >>> (least_significant_bit mask).toNat < mx
    · rw [pack_overflow_cases array w false hlm hgt,
        pack_overflow_cases array w true hlm hgt]
      constructor
      · intro out hout
        simp at hout
      · intro hout
        simp at hout
    · have hle := Nat.not_lt.mp hgt
      rw [pack_copy_ok array w hlm hle, pack_inplace_ok array w hlm hle]
      rw [pack_copy_eq_packStep]
      constructor
      · intro out hout
        simp only [Except.ok.injEq, Option.some.injEq] at hout
        subst hout
        intro hi hj
        simp only [List.get_eq_getElem, List.getElem_zipWith]
        exact packStep_testBit_outside w _ _ _ hk
          (hbound _ (List.getElem_mem hj))
      · intro _ hi hj
        simp only [List.get_eq_getElem, List.getElem_zipWith]
        exact packStep_testBit_outside w _ _ _ hk
          (hbound _ (List.getElem_mem hj))

theorem pack_alters_only_masked_bits_witness :
    (pack [0b10100101] [3] 0b00001111 8 false).1 = .ok (some [0b10100011]) ∧
    ((0b10100011 : Nat).testBit 7 = (0b10100101 : Nat).testBit 7) :=
  ⟨by decide,
   (pack_alters_only_masked_bits [0b10100101] [3] 0b00001111 8 7 0
      (by decide) (by decide) (by decide)).1
     [0b10100011] (by decide) (by decide) (by decide)⟩

/-- C7: copy and in-place modes of `pack` are behavior-identical.  Copy mode
never writes the caller's buffer and returns a new column; in-place mode
returns nothing (`none`) and leaves in the caller's buffer a column
bit-identical to the one copy mode returns; on failure both modes fail with the
same error and the in-place buffer is untouched. -/
theorem pack_copy_inplace_equivalent (array sub : List Nat) (mask w : Nat)
    (_hmask : mask ≠ 0) :
    (pack array sub mask w false).2 = array ∧
    (∀ out, (pack array sub mask w false).1 = .ok (some out) →
       (pack array sub mask w true).1 = .ok none ∧
       (pack array sub mask w true).2 = out) ∧
    (∀ e, (pack array sub mask w false).1 = .error e →
       (pack array sub mask w true).1 = .error e ∧
       (pack array sub mask w true).2 = array) := by
  cases hlm : listMax sub with
  | none =>
    rw [pack_empty_cases array w false hlm, pack_empty_cases array w true hlm]
    refine ⟨rfl, ?_, ?_⟩
    · intro out hout
      simp at hout
    · intro e he
      simp only [Except.error.injEq] at he
      subst he
      exact ⟨rfl, rfl⟩
  | some mx =>
    by_cases hgt : mask >>> (least_significant_bit mask).toNat < mx
    · rw [pack_overflow_cases array w false hlm hgt,
        pack_overflow_cases array w true hlm hgt]
      refine ⟨rfl, ?_, ?_⟩
      · intro out hout
        simp at hout
      · intro e he
        simp only [Except.error.injEq] at he
        subst he
        exact ⟨rfl, rfl⟩
    · have hle := Nat.not_lt.mp hgt
      rw [pack_copy_ok array w hlm hle, pack_inplace_ok array w hlm hle,
        pack_copy_eq_packStep]
      refine ⟨rfl, ?_, ?_⟩
      · intro out hout
        simp only [Except.ok.injEq, Option.some.injEq] at hout
        subst hout
        exact ⟨rfl, rfl⟩
      · intro e he
        simp at he

theorem pack_copy_inplace_equivalent_witness :
    (pack [0b10100101] [3] 0b00001111 8 true).1 = .ok none ∧
    (pack [0b10100101] [3] 0b00001111 8 true).2 = [0b10100011] :=
  (pack_copy_inplace_equivalent [0b10100101] [3] 0b00001111 8
      (by decide)).2.1 [0b10100011] (by decide)

/-- C8: packing two sub-fields with disjoint masks into the same container
column commutes — for every destination column, disjoint nonzero masks, and
in-range value columns, packing A's values then B's values (in-place, as the
repacker does) leaves a buffer bit-identical to packing in the other order. -/
theorem pack_disjoint_commutes (array subA subB : List Nat)
    (maskA maskB w shiftA shiftB : Nat)
    (hA : IsLsbIdx maskA shiftA) (hB : IsLsbIdx maskB shiftB)
    (hdisj : maskA &&& maskB = 0)
    (hrangeA : ∀ v ∈ subA, v ≤ maskA >>> shiftA)
    (hrangeB : ∀ v ∈ subB, v ≤ maskB >>> shiftB) :
    (pack (pack array subA maskA w true).2 subB maskB w true).2 =
      (pack (pack array subB maskB w true).2 subA maskA w true).2 := by
  have hlA : (least_significant_bit maskA).toNat = shiftA :=
    least_significant_bit_toNat hA
  have hlB : (least_significant_bit maskB).toNat = shiftB :=
    least_significant_bit_toNat hB
  cases hmA : listMax subA with
  | none =>
    have h1 : ∀ arr : List Nat, (pack arr subA maskA w true).2 = arr :=
      fun arr => by rw [pack_empty_cases arr w true hmA]
    cases hmB : listMax subB with
    | none =>
      have h2 : ∀ arr : List Nat, (pack arr subB maskB w true).2 = arr :=
        fun arr => by rw [pack_empty_cases arr w true hmB]
      simp only [h1, h2]
    | some mB =>
      have hleB : mB ≤ maskB >>> (least_significant_bit maskB).toNat := by
        rw [hlB]
        exact hrangeB mB (listMax_mem hmB)
      have h2 : ∀ arr : List Nat, (pack arr subB maskB w true).2 =
          List.zipWith (packStep w maskB ((least_significant_bit maskB).toNat))
            arr subB :=
        fun arr => by rw [pack_inplace_ok arr w hmB hleB]
      simp only [h1, h2]
  | some mA =>
    have hleA : mA ≤ maskA >>> (least_significant_bit maskA).toNat := by
      rw [hlA]
      exact hrangeA mA (listMax_mem hmA)
    have h1 : ∀ arr : List Nat, (pack arr subA maskA w true).2 =
        List.zipWith (packStep w maskA ((least_significant_bit maskA).toNat))
          arr subA :=
      fun arr => by rw [pack_inplace_ok arr w hmA hleA]
    cases hmB : listMax subB with
    | none =>
      have h2 : ∀ arr : List Nat, (pack arr subB maskB w true).2 = arr :=
        fun arr => by rw [pack_empty_cases arr w true hmB]
      simp only [h1, h2]
    | some mB =>
      have hleB : mB ≤ maskB >>> (least_significant_bit maskB).toNat := by
        rw [hlB]
        exact hrangeB mB (listMax_mem hmB)
      have h2 : ∀ arr : List Nat, (pack arr subB maskB w true).2 =
          List.zipWith (packStep w maskB ((least_significant_bit maskB).toNat))
            arr subB :=
        fun arr => by rw [pack_inplace_ok arr w hmB hleB]
      simp only [h1, h2]
      exact zipWith_comm_of_step
        (fun a x y => packStep_comm w _ _ a x y hdisj) array subA subB

theorem pack_disjoint_commutes_witness :
    (pack (pack [0] [5] 0b00001111 8 true).2 [10] 0b11110000 8 true).2 =
      (pack (pack [0] [10] 0b11110000 8 true).2 [5] 0b00001111 8 true).2 :=
  pack_disjoint_commutes [0] [5] [10] 0b00001111 0b11110000 8 0 4
    (by decide) (by decide) (by decide) (by decide) (by decide)

/-! ## Record batches and the point-format descriptor -/

/-- One column of a structured array: the bit width of its unsigned element
dtype and its element values. -/
structure Column where
  width : Nat
  data : List Nat
deriving Repr, DecidableEq

/-- A record batch: a numpy structured array as an ordered association list of
named columns (the order is the dtype's field order). -/
abbrev RecordBatch := List (String × Column)

/-- A sub-field descriptor as used by the packing module: a name and a mask. -/
structure SubField where
  name : String
  mask : Nat
deriving Repr, DecidableEq

/-- The slice of the external point-format descriptor the module reads:
`point_format.dtype` (ordered field names with element widths of the structured
array being built) and `point_format.composed_fields` (composed-field name to
its ordered sub-field list). -/
structure PointFormat where
  dtype : List (String × Nat)
  composed_fields : List (String × List SubField)
deriving Repr, DecidableEq

/-- Field read `batch[name]`: the first column with that name, if any. -/
def getCol (b : RecordBatch) (n : String) : Option Column :=
  (b.find? (fun p => p.1 == n)).map (fun p => p.2)

/-- Field assignment `batch[name] = vals`: stores `vals` cast to the column's
element width.  (Only meaningful when the field exists; `setColE` raises
`KeyError` otherwise, as numpy does.) -/
def setCol (b : RecordBatch) (n : String) (vals : List Nat) : RecordBatch :=
  b.map (fun p =>
    if p.1 == n then (p.1, { p.2 with data := vals.map (fun v => v % 2 ^ p.2.width) })
    else p)

/-- Replace a column's data without a cast: used to write back the final buffer
of an in-place `pack`, which has already stored with the column's width. -/
def setColData (b : RecordBatch) (n : String) (vals : List Nat) : RecordBatch :=
  b.map (fun p => if p.1 == n then (p.1, { p.2 with data := vals }) else p)

/-- Checked field assignment: `KeyError` when the field is absent. -/
def setColE (b : RecordBatch) (n : String) (vals : List Nat) :
    Except PackingError RecordBatch :=
  match getCol b n with
  | some _ => .ok (setCol b n vals)
  | none => .error (.keyError n)

/-- The shared row count of a batch (the structured array's shape). -/
def numRows (b : RecordBatch) : Nat :=
  match b with
  | [] => 0
  | (_, c) :: _ => c.data.length

/-- Source `np.zeros_like(data, dtype)`: a fresh zero-initialized batch with
`data`'s row count and the given dtype. -/
def zeros_like (b : RecordBatch) (dtype : List (String × Nat)) : RecordBatch :=
  dtype.map (fun p => (p.1, ⟨p.2, List.replicate (numRows b) 0⟩))

/-- Source `dim_name in composed_dims` / `composed_dims[dim_name]`. -/
def findComposed (composed : List (String × List SubField)) (n : String) :
    Option (List SubField) :=
  (composed.find? (fun p => p.1 == n)).map (fun p => p.2)

/-! ## The record unpacker (`unpack_sub_fields`) -/

/-- Inner loop of `unpack_sub_fields`, packing.py lines 77-79:

    for sub_field in composed_dims[dim_name]:
        point_record[sub_field.name] = unpack(data[dim_name], sub_field.mask)

`src` is the composed column `data[dim_name]`; each store casts the uint8
result of `unpack` to the sub-field column's width. -/
def unpackSubsLoop (subs : List SubField) (src : Column) (acc : RecordBatch) :
    Except PackingError RecordBatch :=
  match subs with
  | [] => .ok acc
  | sf :: rest =>
    match setColE acc sf.name (unpack src.data sf.mask 8) with
    | .ok acc1 => unpackSubsLoop rest src acc1
    | .error e => .error e

/-- Outer loop of `unpack_sub_fields`, packing.py lines 75-82:

    for dim_name in data.dtype.names:
        if dim_name in composed_dims:
            for sub_field in composed_dims[dim_name]: ...
        else:
            point_record[dim_name] = data[dim_name]

`entries` enumerates `data`'s fields in dtype order (name and column).  The
input batch `data` is threaded explicitly (second component of the result) so
that the frame theorems can speak about its state after the call; the source
never assigns into it, so the definition passes it through unchanged. -/
def unpackLoop (composed : List (String × List SubField))
    (entries : List (String × Column)) (data point_record : RecordBatch) :
    Except PackingError Unit × RecordBatch × RecordBatch :=
  match entries with
  | [] => (.ok (), data, point_record)
  | (dim_name, col) :: rest =>
    match findComposed composed dim_name with
    | some subs =>
      match unpackSubsLoop subs col point_record with
      | .ok acc1 => unpackLoop composed rest data acc1
      | .error e => (.error e, data, point_record)
    | none =>
      match setColE point_record dim_name col.data with
      | .ok acc1 => unpackLoop composed rest data acc1
      | .error e => (.error e, data, point_record)

/-- Source `unpack_sub_fields(data, point_format)`, packing.py lines 66-83:

    composed_dims = point_format.composed_fields
    dtype = point_format.dtype
    point_record = np.zeros_like(data, dtype)
    for dim_name in data.dtype.names: ...
    return point_record

The result pairs the returned value (or error) with the final state of the
caller's `data` buffer. -/
def unpack_sub_fields (data : RecordBatch) (point_format : PointFormat) :
    Except PackingError RecordBatch × RecordBatch :=
  let composed_dims := point_format.composed_fields
  let dtype := point_format.dtype
  let point_record := zeros_like data dtype
  match unpackLoop composed_dims data data point_record with
  | (.ok _, data1, rec1) => (.ok rec1, data1)
  | (.error e, data1, _) => (.error e, data1)

/-! ## The record repacker (`repack_sub_fields`) -/

/-- Source `_repack_composed_dim(dim_name, sub_fields, repacked_array,
structured_array)`, packing.py lines 105-135:

    for sub_field in sub_fields:
        try:
            pack(repacked_array[dim_name], structured_array[sub_field.name],
                 sub_field.mask, inplace=True)
        except OverflowError as e:
            raise OverflowError("Error repacking {} into {}: {}"...)

`pack` mutates the view `repacked_array[dim_name]` in place; the model reads the
column, runs `pack`, and writes `pack`'s final buffer back — also on error, so
that the model preserves exactly the mutations the source performs.  Only
`OverflowError` is re-wrapped (with the sub-field and composed-dim names, and
the original offending value and maximum preserved inside); numpy's
empty-reduction error propagates unchanged.  The caller's `structured_array` is
threaded through (last component) and never written. -/
def _repack_composed_dim (dim_name : String) (sub_fields : List SubField)
    (repacked_array structured_array : RecordBatch) :
    Except PackingError Unit × RecordBatch × RecordBatch :=
  match sub_fields with
  | [] => (.ok (), repacked_array, structured_array)
  | sf :: rest =>
    match getCol repacked_array dim_name with
    | none => (.error (.keyError dim_name), repacked_array, structured_array)
    | some dest =>
      match getCol structured_array sf.name with
      | none => (.error (.keyError sf.name), repacked_array, structured_array)
      | some src =>
        match pack dest.data src.data sf.mask dest.width true with
        | (.ok _, buf) =>
          _repack_composed_dim dim_name rest
            (setColData repacked_array dim_name buf) structured_array
        | (.error (.overflow v mx), buf) =>
          (.error (.repackOverflow sf.name dim_name v mx),
           setColData repacked_array dim_name buf, structured_array)
        | (.error e, buf) =>
          (.error e, setColData repacked_array dim_name buf, structured_array)

/-- Loop of `repack_sub_fields`, packing.py lines 97-101:

    for dim_name in repacked_array.dtype.names:
        if dim_name in composed_dims:
            _repack_composed_dim(dim_name, composed_dims[dim_name],
                                 repacked_array, structured_array)
        else:
            repacked_array[dim_name] = structured_array[dim_name]

`names` enumerates the freshly created output's dtype names. -/
def repackLoop (composed : List (String × List SubField)) (names : List String)
    (repacked_array structured_array : RecordBatch) :
    Except PackingError Unit × RecordBatch × RecordBatch :=
  match names with
  | [] => (.ok (), repacked_array, structured_array)
  | dim_name :: rest =>
    match findComposed composed dim_name with
    | some subs =>
      match _repack_composed_dim dim_name subs repacked_array structured_array with
      | (.ok _, rep1, str1) => repackLoop composed rest rep1 str1
      | (.error e, rep1, str1) => (.error e, rep1, str1)
    | none =>
      match getCol structured_array dim_name with
      | none => (.error (.keyError dim_name), repacked_array, structured_array)
      | some col =>
        match setColE repacked_array dim_name col.data with
        | .ok rep1 => repackLoop composed rest rep1 structured_array
        | .error e => (.error e, repacked_array, structured_array)

/-- Source `repack_sub_fields(structured_array, point_format)`, packing.py
lines 86-102:

    dtype = point_format.dtype
    composed_dims = point_format.composed_fields
    repacked_array = np.zeros_like(structured_array, dtype)
    for dim_name in repacked_array.dtype.names: ...
    return repacked_array

The result pairs the returned value (or error) with the final state of the
caller's `structured_array` buffer. -/
def repack_sub_fields (structured_array : RecordBatch)
    (point_format : PointFormat) :
    Except PackingError RecordBatch × RecordBatch :=
  let dtype := point_format.dtype
  let composed_dims := point_format.composed_fields
  let repacked_array := zeros_like structured_array dtype
  match repackLoop composed_dims (dtype.map (fun p => p.1))
      repacked_array structured_array with
  | (.ok _, rep1, str1) => (.ok rep1, str1)
  | (.error e, _, str1) => (.error e, str1)

/-! ## Frame facts: the input batch is never written -/

theorem unpackLoop_data_unchanged (composed : List (String × List SubField))
    (entries : List (String × Column)) :
    ∀ data acc, (unpackLoop composed entries data acc).2.1 = data := by
  induction entries with
  | nil =>
    intro data acc
    rfl
  | cons e rest ih =>
    intro data acc
    obtain ⟨dim_name, col⟩ := e
    unfold unpackLoop
    split
    · split
      · apply ih
      · rfl
    · split
      · apply ih
      · rfl

theorem repack_composed_dim_structured_unchanged (dim_name : String)
    (sub_fields : List SubField) :
    ∀ repacked_array structured_array,
      (_repack_composed_dim dim_name sub_fields repacked_array
        structured_array).2.2 = structured_array := by
  induction sub_fields with
  | nil =>
    intro rep str
    rfl
  | cons sf rest ih =>
    intro rep str
    unfold _repack_composed_dim
    split
    · rfl
    · split
      · rfl
      · split
        · apply ih
        · rfl
        · rfl

theorem repackLoop_structured_unchanged (composed : List (String × List SubField))
    (names : List String) :
    ∀ repacked_array structured_array,
      (repackLoop composed names repacked_array structured_array).2.2 =
        structured_array := by
  induction names with
  | nil =>
    intro rep str
    rfl
  | cons dim_name rest ih =>
    intro rep str
    unfold repackLoop
    split
    · rename_i subs hfc
      have h := repack_composed_dim_structured_unchanged dim_name subs rep str
      rcases hd : _repack_composed_dim dim_name subs rep str with ⟨st, rep1, str1⟩
      rw [hd] at h
      cases st with
      | ok u =>
        rw [ih rep1 str1]
        exact h
      | error e =>
        exact h
    · split
      · rfl
      · split
        · apply ih
        · rfl

/-- C9: `unpack_sub_fields` and `repack_sub_fields` never mutate their input
batch.  Each builds its output inside a fresh `zeros_like` buffer and every
store in the model targets that buffer, so after any call — successful or
failed (including a range violation partway through a repack) — the caller's
input batch, threaded through every step as explicit state, is bit-identical to
its pre-call contents. -/
theorem unpack_repack_never_mutate_input :
    (∀ (data : RecordBatch) (pf : PointFormat),
       (unpack_sub_fields data pf).2 = data) ∧
    (∀ (structured_array : RecordBatch) (pf : PointFormat),
       (repack_sub_fields structured_array pf).2 = structured_array) := by
  constructor
  · intro data pf
    have h := unpackLoop_data_unchanged pf.composed_fields data data
      (zeros_like data pf.dtype)
    unfold unpack_sub_fields
    dsimp only
    rcases hl : unpackLoop pf.composed_fields data data (zeros_like data pf.dtype)
      with ⟨st, d1, r1⟩
    rw [hl] at h
    try rw [hl]
    cases st <;> simpa using h
  · intro str pf
    have h := repackLoop_structured_unchanged pf.composed_fields
      (pf.dtype.map (fun p => p.1)) (zeros_like str pf.dtype) str
    unfold repack_sub_fields
    dsimp only
    rcases hl : repackLoop pf.composed_fields (pf.dtype.map (fun p => p.1))
        (zeros_like str pf.dtype) str with ⟨st, rep1, str1⟩
    rw [hl] at h
    try rw [hl]
    cases st <;> simpa using h

/-! ## A composed field missing from the input batch -/

theorem findComposed_filter (composed : List (String × List SubField))
    (c n : String) (hn : n ≠ c) :
    findComposed (composed.filter (fun p => p.1 != c)) n =
      findComposed composed n := by
  induction composed with
  | nil => rfl
  | cons p rest ih =>
    obtain ⟨a, s⟩ := p
    by_cases hac : a = c
    · subst hac
      have h1 : ((a, s).1 != a) = false := by simp
      have h2 : ((a, s).1 == n) = false := by
        simp only [beq_eq_false_iff_ne, ne_eq]
        intro h
        exact hn (h ▸ rfl)
      simp only [List.filter_cons, h1, if_false, findComposed, List.find?_cons,
        h2] at ih ⊢
      exact ih
    · have h1 : ((a, s).1 != c) = true := by
        simp only [bne_iff_ne, ne_eq]
        exact hac
      by_cases han : a = n
      · subst han
        have h2 : ((a, s).1 == a) = true := by simp
        simp only [List.filter_cons, h1, if_true, findComposed, List.find?_cons, h2]
      · have h2 : ((a, s).1 == n) = false := by
          simp only [beq_eq_false_iff_ne, ne_eq]
          exact han
        simp only [List.filter_cons, h1, if_true, findComposed, List.find?_cons,
          h2] at ih ⊢
        exact ih

theorem unpackLoop_filter (composed : List (String × List SubField)) (c : String) :
    ∀ (entries : List (String × Column)) data acc,
      (∀ p ∈ entries, p.1 ≠ c) →
      unpackLoop (composed.filter (fun p => p.1 != c)) entries data acc =
        unpackLoop composed entries data acc := by
  intro entries
  induction entries with
  | nil =>
    intro data acc _
    rfl
  | cons e rest ih =>
    intro data acc hne
    obtain ⟨dim_name, col⟩ := e
    have hd : dim_name ≠ c := hne (dim_name, col) (List.mem_cons_self _ _)
    have hrest : ∀ p ∈ rest, p.1 ≠ c := fun p hp => hne p (List.mem_cons_of_mem _ hp)
    unfold unpackLoop
    rw [findComposed_filter composed c dim_name hd]
    split
    · split
      · exact ih data _ hrest
      · rfl
    · split
      · exact ih data _ hrest
      · rfl

/-- C6 counterexample: a descriptor whose composed field `flags` is absent from
the input batch.  The record unpacker succeeds — it iterates over the input's
own fields, so the missing composed field is silently skipped and its sub-field
column stays zero-initialized; no `SchemaMismatch`-style error is raised (and
no such error exists in the module). -/
theorem unpack_missing_composed_counterexample :
    (unpack_sub_fields [("x", ⟨8, [7]⟩)]
        ⟨[("s", 8), ("x", 8)], [("flags", [⟨"s", 0b00000001⟩])]⟩).1 =
      .ok [("s", ⟨8, [0]⟩), ("x", ⟨8, [7]⟩)] := by decide

/-- C6 (amended): the record unpacker does not detect a composed field that the
descriptor defines but the input batch lacks.  It loops over the input batch's
fields, so such a composed field is silently skipped: removing all its
descriptor entries changes nothing about the call's outcome, and its sub-field
columns keep their `zeros_like` initialization. -/
theorem unpack_missing_composed_skipped (data : RecordBatch)
    (dtype : List (String × Nat)) (composed : List (String × List SubField))
    (c : String) (hc : c ∉ data.map (fun p => p.1)) :
    unpack_sub_fields data ⟨dtype, composed.filter (fun p => p.1 != c)⟩ =
      unpack_sub_fields data ⟨dtype, composed⟩ := by
  have hne : ∀ p ∈ data, p.1 ≠ c := by
    intro p hp h
    exact hc (h ▸ List.mem_map_of_mem (fun q => q.1) hp)
  unfold unpack_sub_fields
  dsimp only
  rw [unpackLoop_filter composed c data data (zeros_like data dtype) hne]

theorem unpack_missing_composed_skipped_witness :
    unpack_sub_fields [("x", ⟨8, [7]⟩)]
        ⟨[("s", 8), ("x", 8)],
         List.filter (fun p => p.1 != "flags") [("flags", [⟨"s", 0b00000001⟩])]⟩ =
      unpack_sub_fields [("x", ⟨8, [7]⟩)]
        ⟨[("s", 8), ("x", 8)], [("flags", [⟨"s", 0b00000001⟩])]⟩ :=
  unpack_missing_composed_skipped [("x", ⟨8, [7]⟩)] [("s", 8), ("x", 8)]
    [("flags", [⟨"s", 0b00000001⟩])] "flags" (by decide)

/-! ## Round trip: counterexample -/

/-- C2 counterexample: the round trip fails as stated.  The descriptor has a
single composed field `c` with a single sub-field `s` of mask `0b101` —
trivially mutually disjoint — and the expanded batch holds the value `2`, which
respects the mask's maximum `0b101 >>> 0 = 5`.  Yet repacking stores
`(2 <<< 0) &&& 0b101 = 0` (the mask is not contiguous), and unpacking the
repacked batch returns `0 ≠ 2`: `unpack(repack(y)) ≠ y`. -/
theorem round_trip_counterexample :
    (repack_sub_fields [("s", ⟨8, [2]⟩)]
        ⟨[("c", 8)], [("c", [⟨"s", 0b101⟩])]⟩).1 = .ok [("c", ⟨8, [0]⟩)] ∧
    (unpack_sub_fields [("c", ⟨8, [0]⟩)]
        ⟨[("s", 8)], [("c", [⟨"s", 0b101⟩])]⟩).1 = .ok [("s", ⟨8, [0]⟩)] ∧
    ([("s", ⟨8, [0]⟩)] : RecordBatch) ≠ [("s", ⟨8, [2]⟩)] :=
  ⟨by decide, by decide, by decide⟩

/-! ## Round trip: well-formedness of descriptor and batches -/

/-- The shift the module computes for a mask. -/
def lsbT (m : Nat) : Nat := (least_significant_bit m).toNat

/-- Number of payload bits of a mask (bit length of `mask >>> shift`). -/
def payloadBits (m : Nat) : Nat := bit_length (m >>> lsbT m)

/-- Conditions under which a sub-field survives the codec round trip: a nonzero
contiguous mask (`mask >>> shift` is all-ones), whose payload fits the fixed
8-bit intermediate of `unpack`, fits the sub-field's own column width, which
lies inside the composed column's width `wc`, and whose shift amount plus
payload width fit the sub-field column width.  The last condition is forced by
numpy's evaluation of `sub_field_array << lsb` inside `pack`: the shift is
computed in the sub-field column's element type (`lsb` is a Python scalar and
does not widen the result), so when `lsb + payload` exceeds that width the
shifted value wraps there — e.g. a mask `0xFF00` over an 8-bit sub-field column
stores zeros — and the field is lost (see `packStepNp` and
`pack_store_wrap_agrees` for the wrapped store and the agreement under this
condition). -/
def subFieldWF (sw : String → Nat) (wc : Nat) (sf : SubField) : Prop :=
  sf.mask ≠ 0 ∧
  sf.mask >>> lsbT sf.mask = 2 ^ payloadBits sf.mask - 1 ∧
  payloadBits sf.mask ≤ 8 ∧
  payloadBits sf.mask ≤ sw sf.name ∧
  sf.mask < 2 ^ wc ∧
  lsbT sf.mask + payloadBits sf.mask ≤ sw sf.name

instance (sw : String → Nat) (wc : Nat) (sf : SubField) :
    Decidable (subFieldWF sw wc sf) := by
  unfold subFieldWF
  infer_instance

/-- Predicate transformer: holds of the value under `some`, trivially of
`none`. -/
def optionAll {α : Type} (o : Option α) (Q : α → Prop) : Prop :=
  match o with
  | some a => Q a
  | none => True

instance {α : Type} (o : Option α) (Q : α → Prop) [∀ a, Decidable (Q a)] :
    Decidable (optionAll o Q) := by
  cases o with
  | none => exact .isTrue trivial
  | some a =>
    unfold optionAll
    infer_instance

/-- The dtype (name, width) schema of a batch. -/
def schemaOf (b : RecordBatch) : List (String × Nat) :=
  b.map (fun p => (p.1, p.2.width))

/-- Width lookup in a dtype. -/
def findW (dt : List (String × Nat)) (n : String) : Option Nat :=
  (dt.find? (fun p => p.1 == n)).map (fun p => p.2)

/-- Expansion of one physical field: a composed field contributes its sub-field
columns (with widths given by `sw`), a plain field contributes itself. -/
def expandEntry (composed : List (String × List SubField)) (sw : String → Nat)
    (p : String × Nat) : List (String × Nat) :=
  match findComposed composed p.1 with
  | some subs => subs.map (fun sf => (sf.name, sw sf.name))
  | none => [p]

/-- The expanded dtype corresponding to a physical dtype. -/
def expandDtype (composed : List (String × List SubField)) (sw : String → Nat)
    (P : List (String × Nat)) : List (String × Nat) :=
  P.flatMap (expandEntry composed sw)

/-- Union of the masks of a sub-field list. -/
def unionMask (subs : List SubField) : Nat :=
  subs.foldr (fun sf acc => sf.mask ||| acc) 0

/-- A batch in the given schema: exactly those columns, each with `N` rows of
in-width values. -/
def batchWF (b : RecordBatch) (dt : List (String × Nat)) (N : Nat) : Prop :=
  schemaOf b = dt ∧
  ∀ p ∈ b, p.2.data.length = N ∧ ∀ v ∈ p.2.data, v < 2 ^ p.2.width

/-- Descriptor well-formedness for the round trip: unambiguous physical and
expanded schemas, and for every composed field of the physical schema a
nonempty, pairwise-disjoint, individually well-formed sub-field list. -/
def descrWF (P : List (String × Nat))
    (composed : List (String × List SubField)) (sw : String → Nat) : Prop :=
  (P.map Prod.fst).Nodup ∧
  ((expandDtype composed sw P).map Prod.fst).Nodup ∧
  ∀ q ∈ composed, optionAll (findW P q.1) (fun w =>
    q.2 ≠ [] ∧ q.2.Pairwise (fun a b => a.mask &&& b.mask = 0) ∧
    ∀ sf ∈ q.2, subFieldWF sw w sf)

/-- Every composed column's bits lie inside the union of its sub-field masks
(what the repacked batch can represent). -/
def coverOK (composed : List (String × List SubField)) (b : RecordBatch) : Prop :=
  ∀ p ∈ b, optionAll (findComposed composed p.1)
    (fun subs => ∀ v ∈ p.2.data, v &&& unionMask subs = v)

/-- Every sub-field column's values respect the mask's maximum. -/
def rangeOK (composed : List (String × List SubField)) (y : RecordBatch) : Prop :=
  ∀ q ∈ composed, ∀ sf ∈ q.2, optionAll (getCol y sf.name)
    (fun c => ∀ v ∈ c.data, v ≤ sf.mask >>> lsbT sf.mask)

/-! ## Association-list lemmas for batches -/

theorem getCol_cons_pos {p : String × Column} {n : String} (rest : RecordBatch)
    (hp : p.1 = n) : getCol (p :: rest) n = some p.2 := by
  unfold getCol
  rw [List.find?_cons]
  have hb : (p.1 == n) = true := by simp [hp]
  simp [hb]

theorem getCol_cons_neg {p : String × Column} {n : String} (rest : RecordBatch)
    (hp : p.1 ≠ n) : getCol (p :: rest) n = getCol rest n := by
  unfold getCol
  rw [List.find?_cons]
  have hb : (p.1 == n) = false := by simp [hp]
  simp [hb]

theorem setCol_cons_pos {p : String × Column} {n : String} (rest : RecordBatch)
    (vals : List Nat) (hp : p.1 = n) :
    setCol (p :: rest) n vals =
      (p.1, ⟨p.2.width, vals.map (fun v => v % 2 ^ p.2.width)⟩) :: setCol rest n vals := by
  unfold setCol
  rw [List.map_cons]
  have hb : (p.1 == n) = true := by simp [hp]
  simp [hb]

theorem setCol_cons_neg {p : String × Column} {n : String} (rest : RecordBatch)
    (vals : List Nat) (hp : p.1 ≠ n) :
    setCol (p :: rest) n vals = p :: setCol rest n vals := by
  unfold setCol
  rw [List.map_cons]
  have hb : (p.1 == n) = false := by simp [hp]
  simp [hb]

theorem setColData_cons_pos {p : String × Column} {n : String}
    (rest : RecordBatch) (vals : List Nat) (hp : p.1 = n) :
    setColData (p :: rest) n vals =
      (p.1, ⟨p.2.width, vals⟩) :: setColData rest n vals := by
  unfold setColData
  rw [List.map_cons]
  have hb : (p.1 == n) = true := by simp [hp]
  simp [hb]

theorem setColData_cons_neg {p : String × Column} {n : String}
    (rest : RecordBatch) (vals : List Nat) (hp : p.1 ≠ n) :
    setColData (p :: rest) n vals = p :: setColData rest n vals := by
  unfold setColData
  rw [List.map_cons]
  have hb : (p.1 == n) = false := by simp [hp]
  simp [hb]

theorem getCol_setCol_self {b : RecordBatch} {n : String} {c : Column}
    (h : getCol b n = some c) (vals : List Nat) :
    getCol (setCol b n vals) n =
      some ⟨c.width, vals.map (fun v => v % 2 ^ c.width)⟩ := by
  induction b with
  | nil => simp [getCol] at h
  | cons p rest ih =>
    by_cases hp : p.1 = n
    · rw [getCol_cons_pos rest hp] at h
      rw [setCol_cons_pos rest vals hp,
        @getCol_cons_pos (p.1, ⟨p.2.width, vals.map (fun v => v % 2 ^ p.2.width)⟩)
          n (setCol rest n vals) hp]
      rw [Option.some.inj h]
    · rw [getCol_cons_neg rest hp] at h
      rw [setCol_cons_neg rest vals hp,
        @getCol_cons_neg p n (setCol rest n vals) hp]
      exact ih h

theorem getCol_setCol_ne {b : RecordBatch} {n m : String} (h : m ≠ n)
    (vals : List Nat) : getCol (setCol b n vals) m = getCol b m := by
  induction b with
  | nil => rfl
  | cons p rest ih =>
    by_cases hp : p.1 = n
    · have hm : p.1 ≠ m := by
        rw [hp]
        intro hc
        exact h hc.symm
      rw [setCol_cons_pos rest vals hp,
        @getCol_cons_neg (p.1, ⟨p.2.width, vals.map (fun v => v % 2 ^ p.2.width)⟩)
          m (setCol rest n vals) hm,
        getCol_cons_neg rest hm]
      exact ih
    · rw [setCol_cons_neg rest vals hp]
      by_cases hm : p.1 = m
      · rw [@getCol_cons_pos p m (setCol rest n vals) hm,
          getCol_cons_pos rest hm]
      · rw [@getCol_cons_neg p m (setCol rest n vals) hm,
          getCol_cons_neg rest hm]
        exact ih

theorem getCol_setColData_self {b : RecordBatch} {n : String} {c : Column}
    (h : getCol b n = some c) (vals : List Nat) :
    getCol (setColData b n vals) n = some ⟨c.width, vals⟩ := by
  induction b with
  | nil => simp [getCol] at h
  | cons p rest ih =>
    by_cases hp : p.1 = n
    · rw [getCol_cons_pos rest hp] at h
      rw [setColData_cons_pos rest vals hp,
        @getCol_cons_pos (p.1, ⟨p.2.width, vals⟩) n (setColData rest n vals) hp]
      rw [Option.some.inj h]
    · rw [getCol_cons_neg rest hp] at h
      rw [setColData_cons_neg rest vals hp,
        @getCol_cons_neg p n (setColData rest n vals) hp]
      exact ih h

theorem getCol_setColData_ne {b : RecordBatch} {n m : String} (h : m ≠ n)
    (vals : List Nat) : getCol (setColData b n vals) m = getCol b m := by
  induction b with
  | nil => rfl
  | cons p rest ih =>
    by_cases hp : p.1 = n
    · have hm : p.1 ≠ m := by
        rw [hp]
        intro hc
        exact h hc.symm
      rw [setColData_cons_pos rest vals hp,
        @getCol_cons_neg (p.1, ⟨p.2.width, vals⟩) m (setColData rest n vals) hm,
        getCol_cons_neg rest hm]
      exact ih
    · rw [setColData_cons_neg rest vals hp]
      by_cases hm : p.1 = m
      · rw [@getCol_cons_pos p m (setColData rest n vals) hm,
          getCol_cons_pos rest hm]
      · rw [@getCol_cons_neg p m (setColData rest n vals) hm,
          getCol_cons_neg rest hm]
        exact ih

theorem schemaOf_setCol (b : RecordBatch) (n : String) (vals : List Nat) :
    schemaOf (setCol b n vals) = schemaOf b := by
  induction b with
  | nil => rfl
  | cons p rest ih =>
    by_cases hp : p.1 = n
    · rw [setCol_cons_pos rest vals hp]
      simp only [schemaOf, List.map_cons] at ih ⊢
      rw [ih]
    · rw [setCol_cons_neg rest vals hp]
      simp only [schemaOf, List.map_cons] at ih ⊢
      rw [ih]

theorem schemaOf_setColData (b : RecordBatch) (n : String) (vals : List Nat) :
    schemaOf (setColData b n vals) = schemaOf b := by
  induction b with
  | nil => rfl
  | cons p rest ih =>
    by_cases hp : p.1 = n
    · rw [setColData_cons_pos rest vals hp]
      simp only [schemaOf, List.map_cons] at ih ⊢
      rw [ih]
    · rw [setColData_cons_neg rest vals hp]
      simp only [schemaOf, List.map_cons] at ih ⊢
      rw [ih]

theorem getCol_eq_none_iff (b : RecordBatch) (n : String) :
    getCol b n = none ↔ n ∉ b.map (fun p => p.1) := by
  induction b with
  | nil => simp [getCol]
  | cons p rest ih =>
    by_cases hp : p.1 = n
    · rw [getCol_cons_pos rest hp]
      simp [hp]
    · rw [getCol_cons_neg rest hp]
      simp only [List.map_cons, List.mem_cons]
      rw [ih]
      constructor
      · intro h hc
        rcases hc with hc | hc
        · exact hp hc.symm
        · exact h hc
      · intro h hc
        exact h (Or.inr hc)

theorem schemaOf_zeros_like (b : RecordBatch) (dt : List (String × Nat)) :
    schemaOf (zeros_like b dt) = dt := by
  induction dt with
  | nil => rfl
  | cons p rest ih =>
    show (p.1, ({ width := p.2, data := List.replicate (numRows b) 0 } : Column).width)
        :: schemaOf (zeros_like b rest) = p :: rest
    rw [ih]

theorem getCol_zeros_like (b : RecordBatch) (dt : List (String × Nat))
    (n : String) :
    getCol (zeros_like b dt) n =
      (findW dt n).map (fun w => ⟨w, List.replicate (numRows b) 0⟩) := by
  induction dt with
  | nil => rfl
  | cons p rest ih =>
    show getCol ((p.1, ⟨p.2, List.replicate (numRows b) 0⟩) :: zeros_like b rest) n = _
    unfold findW
    rw [List.find?_cons]
    by_cases hp : p.1 = n
    · have hb : (p.1 == n) = true := by simp [hp]
      rw [getCol_cons_pos (zeros_like b rest) hp]
      simp [hb]
    · have hb : (p.1 == n) = false := by simp [hp]
      rw [getCol_cons_neg (zeros_like b rest) hp]
      simp only [hb]
      exact ih

theorem findW_of_mem_nodup {dt : List (String × Nat)} {n : String} {w : Nat}
    (h : (n, w) ∈ dt) (hnd : (dt.map (fun p => p.1)).Nodup) :
    findW dt n = some w := by
  induction dt with
  | nil => cases h
  | cons p rest ih =>
    unfold findW
    rw [List.find?_cons]
    rcases List.mem_cons.mp h with h1 | h1
    · subst h1
      simp
    · have hp : p.1 ≠ n := by
        intro hc
        have hmem : n ∈ rest.map (fun q => q.1) :=
          List.mem_map_of_mem (fun q => q.1) h1
        rw [List.map_cons, List.nodup_cons] at hnd
        exact hnd.1 (hc ▸ hmem)
      have hb : (p.1 == n) = false := by simp [hp]
      rw [List.map_cons, List.nodup_cons] at hnd
      have hrec := ih h1 hnd.2
      unfold findW at hrec
      simp only [hb]
      exact hrec

theorem getCol_mem {b : RecordBatch} {n : String} {c : Column}
    (h : getCol b n = some c) : (n, c) ∈ b := by
  induction b with
  | nil => simp [getCol] at h
  | cons p rest ih =>
    by_cases hp : p.1 = n
    · rw [getCol_cons_pos rest hp] at h
      have hc := Option.some.inj h
      have hpc : p = (n, c) := by
        obtain ⟨p1, p2⟩ := p
        simp only at hp hc
        rw [hp, hc]
      rw [← hpc]
      exact List.mem_cons_self p rest
    · rw [getCol_cons_neg rest hp] at h
      exact List.mem_cons_of_mem p (ih h)

theorem getCol_of_mem_nodup {b : RecordBatch} {n : String} {c : Column}
    (h : (n, c) ∈ b) (hnd : (b.map (fun p => p.1)).Nodup) :
    getCol b n = some c := by
  induction b with
  | nil => cases h
  | cons p rest ih =>
    rcases List.mem_cons.mp h with h1 | h1
    · subst h1
      exact getCol_cons_pos rest rfl
    · have hp : p.1 ≠ n := by
        intro hc
        have hmem : n ∈ rest.map (fun q => q.1) :=
          List.mem_map_of_mem (fun q => q.1) h1
        rw [List.map_cons, List.nodup_cons] at hnd
        exact hnd.1 (hc ▸ hmem)
      rw [List.map_cons, List.nodup_cons] at hnd
      rw [getCol_cons_neg rest hp]
      exact ih h1 hnd.2

/-- Two batches with the same schema, unambiguous field names, and equal
columns under every name are equal. -/
theorem batch_ext {b1 b2 : RecordBatch} (hs : schemaOf b1 = schemaOf b2)
    (hnd : (b1.map (fun p => p.1)).Nodup)
    (h : ∀ n, getCol b1 n = getCol b2 n) : b1 = b2 := by
  induction b1 generalizing b2 with
  | nil =>
    cases b2 with
    | nil => rfl
    | cons q rest => simp [schemaOf] at hs
  | cons p rest ih =>
    cases b2 with
    | nil => simp [schemaOf] at hs
    | cons q rest2 =>
      simp only [schemaOf, List.map_cons, List.cons.injEq] at hs
      have hname : p.1 = q.1 := congrArg (fun q : String × Nat => q.1) hs.1
      rw [List.map_cons, List.nodup_cons] at hnd
      have hcol : p.2 = q.2 := by
        have h1 := h p.1
        rw [getCol_cons_pos rest rfl, getCol_cons_pos rest2 hname.symm] at h1
        exact Option.some.inj h1
      have htail : rest = rest2 := by
        apply ih hs.2 hnd.2
        intro n
        by_cases hn : n = p.1
        · have hout1 : getCol rest n = none := by
            rw [getCol_eq_none_iff, hn]
            exact hnd.1
          have hout2 : getCol rest2 n = none := by
            rw [getCol_eq_none_iff, hn]
            have hm : rest.map (fun pr => pr.1) = rest2.map (fun pr => pr.1) := by
              have h2 := congrArg (List.map (fun pr : String × Nat => pr.1)) hs.2
              simpa [schemaOf, List.map_map] using h2
            rw [hname, ← hm, ← hname]
            exact hnd.1
          rw [hout1, hout2]
        · have h1 := h n
          have hbp : p.1 ≠ n := fun hc => hn hc.symm
          have hbq : q.1 ≠ n := fun hc => hn (hname ▸ hc).symm
          rw [getCol_cons_neg rest hbp, getCol_cons_neg rest2 hbq] at h1
          exact h1
      obtain ⟨pn, pc⟩ := p
      obtain ⟨qn, qc⟩ := q
      simp only at hname hcol
      rw [hname, hcol, htail]

/-! ## Scalar round-trip lemmas -/

/-- A contiguous mask is the all-ones payload shifted to its position. -/
theorem mask_eq_shifted {m s b : Nat} (hlsb : IsLsbIdx m s)
    (hsh : m >>> s = 2 ^ b - 1) : m = (2 ^ b - 1) <<< s := by
  apply Nat.eq_of_testBit_eq
  intro i
  rw [Nat.testBit_shiftLeft]
  by_cases his : s ≤ i
  · have h1 : m.testBit i = (m >>> s).testBit (i - s) := by
      rw [Nat.testBit_shiftRight]
      congr 1
      omega
    rw [h1, hsh]
    simp [his]
  · have h1 : m.testBit i = false := hlsb.2 i (by omega)
    simp [h1, his]

theorem shiftLeft_and (a c s : Nat) :
    (a &&& c) <<< s = (a <<< s) &&& (c <<< s) := by
  apply Nat.eq_of_testBit_eq
  intro i
  simp only [Nat.testBit_shiftLeft, Nat.testBit_and]
  by_cases his : s ≤ i <;> simp [his]

theorem shiftLeft_shiftRight_self (v s : Nat) : (v <<< s) >>> s = v := by
  rw [Nat.shiftLeft_eq, Nat.shiftRight_eq_div_pow]
  exact Nat.mul_div_cancel v (Nat.pos_pow_of_pos _ (by omega))

theorem shiftRight_shiftLeft_of_low_zero {z s : Nat}
    (h : ∀ j, j < s → z.testBit j = false) : (z >>> s) <<< s = z := by
  apply Nat.eq_of_testBit_eq
  intro i
  rw [Nat.testBit_shiftLeft]
  by_cases his : s ≤ i
  · have h1 : z.testBit i = (z >>> s).testBit (i - s) := by
      rw [Nat.testBit_shiftRight]
      congr 1
      omega
    rw [h1]
    simp [his]
  · simp [his, h i (by omega)]

/-- Direction 1 scalar fact: extracting a sub-field from a container and
re-injecting it restores the container's masked bits. -/
theorem extract_reinject {m s : Nat} (hlsb : IsLsbIdx m s) (c : Nat) :
    (((c &&& m) >>> s) <<< s) &&& m = c &&& m := by
  have hz : ∀ j, j < s → (c &&& m).testBit j = false := by
    intro j hj
    rw [Nat.testBit_and, hlsb.2 j hj]
    simp
  rw [shiftRight_shiftLeft_of_low_zero hz, Nat.and_assoc, Nat.and_self]

/-- Direction 2 scalar fact: injecting an in-range value and extracting it back
is the identity. -/
theorem inject_extract {m s b : Nat} (hlsb : IsLsbIdx m s)
    (hsh : m >>> s = 2 ^ b - 1) {v : Nat} (hv : v < 2 ^ b) :
    ((v <<< s) &&& m) >>> s = v := by
  rw [mask_eq_shifted hlsb hsh, ← shiftLeft_and,
    Nat.and_pow_two_sub_one_of_lt_two_pow hv, shiftLeft_shiftRight_self]

theorem extract_le_max (c m s : Nat) : (c &&& m) >>> s ≤ m >>> s := by
  rw [Nat.shiftRight_eq_div_pow, Nat.shiftRight_eq_div_pow]
  exact Nat.div_le_div_right Nat.and_le_right

theorem and_eq_zero_of_subset {x m m2 : Nat} (hx : x &&& m = x)
    (hd : m &&& m2 = 0) : x &&& m2 = 0 := by
  apply Nat.eq_of_testBit_eq
  intro i
  have h1 := congrArg (fun t => t.testBit i) hx
  have h2 := congrArg (fun t => t.testBit i) hd
  simp only [Nat.testBit_and, Nat.zero_testBit] at h1 h2 ⊢
  cases hxi : x.testBit i <;> cases hmi : m.testBit i <;> simp_all

theorem and_npNot_self {w m a : Nat} (ha : a < 2 ^ w) (hd : a &&& m = 0) :
    a &&& npNot w m = a := by
  apply Nat.eq_of_testBit_eq
  intro i
  rw [Nat.testBit_and, testBit_npNot]
  have h2 := congrArg (fun t => t.testBit i) hd
  simp only [Nat.testBit_and, Nat.zero_testBit] at h2
  by_cases hiw : i < w
  · cases hxi : a.testBit i <;> simp_all
  · have h3 : a.testBit i = false :=
      Nat.testBit_lt_two_pow
        (lt_of_lt_of_le ha (Nat.pow_le_pow_right (by omega) (by omega)))
    simp [h3, hiw]

/-- One packed store, when the destination is disjoint from the mask and fits
the width, is a plain OR. -/
theorem packStep_eq_or {w m : Nat} (lsb a v : Nat) (ha : a < 2 ^ w)
    (hd : a &&& m = 0) (hm : m < 2 ^ w) :
    packStep w m lsb a v = a ||| ((v <<< lsb) &&& m) := by
  rw [packStep_eq, and_npNot_self ha hd,
    Nat.mod_eq_of_lt (lt_of_le_of_lt Nat.and_le_right hm)]

/-- OR-accumulation of the injected sub-field values of a sub-field list. -/
def orFold (subs : List SubField) (vf : SubField → Nat) : Nat :=
  subs.foldr (fun sf r => ((vf sf <<< lsbT sf.mask) &&& sf.mask) ||| r) 0

theorem orFold_lt {w : Nat} {subs : List SubField} (vf : SubField → Nat)
    (h : ∀ sf ∈ subs, sf.mask < 2 ^ w) : orFold subs vf < 2 ^ w := by
  induction subs with
  | nil => exact Nat.pos_pow_of_pos _ (by omega)
  | cons sf rest ih =>
    have h1 : sf.mask < 2 ^ w := h sf (List.mem_cons_self _ _)
    have h2 := ih (fun b hb => h b (List.mem_cons_of_mem _ hb))
    exact Nat.or_lt_two_pow (lt_of_le_of_lt Nat.and_le_right h1) h2

theorem orFold_and_zero {subs : List SubField} (vf : SubField → Nat) {m : Nat}
    (h : ∀ sf ∈ subs, sf.mask &&& m = 0) : orFold subs vf &&& m = 0 := by
  induction subs with
  | nil => simp [orFold]
  | cons sf rest ih =>
    show (((vf sf <<< lsbT sf.mask) &&& sf.mask) ||| orFold rest vf) &&& m = 0
    rw [Nat.and_distrib_right]
    have h1 : ((vf sf <<< lsbT sf.mask) &&& sf.mask) &&& m = 0 :=
      and_eq_zero_of_subset (by rw [Nat.and_assoc, Nat.and_self])
        (h sf (List.mem_cons_self _ _))
    have h2 := ih (fun b hb => h b (List.mem_cons_of_mem _ hb))
    rw [h1, h2]
    exact Nat.or_zero 0

/-- The in-place packing fold over a pairwise-disjoint sub-field list is the OR
of the injected values on top of the accumulator. -/
theorem scalar_pack_fold (w : Nat) :
    ∀ (subs : List SubField) (acc : Nat) (vf : SubField → Nat),
      acc < 2 ^ w → (∀ sf ∈ subs, acc &&& sf.mask = 0) →
      (∀ sf ∈ subs, sf.mask < 2 ^ w) →
      subs.Pairwise (fun a b => a.mask &&& b.mask = 0) →
      subs.foldl (fun a sf => packStep w sf.mask (lsbT sf.mask) a (vf sf)) acc
        = acc ||| orFold subs vf := by
  intro subs
  induction subs with
  | nil =>
    intro acc vf _ _ _ _
    simp [orFold]
  | cons sf rest ih =>
    intro acc vf hacc hdisj hmask hpair
    rw [List.foldl_cons]
    have hm : sf.mask < 2 ^ w := hmask sf (List.mem_cons_self _ _)
    have hstep : packStep w sf.mask (lsbT sf.mask) acc (vf sf)
        = acc ||| ((vf sf <<< lsbT sf.mask) &&& sf.mask) :=
      packStep_eq_or _ _ _ hacc (hdisj sf (List.mem_cons_self _ _)) hm
    rw [hstep]
    rw [List.pairwise_cons] at hpair
    have hih := ih (acc ||| ((vf sf <<< lsbT sf.mask) &&& sf.mask)) vf
      (Nat.or_lt_two_pow hacc (lt_of_le_of_lt Nat.and_le_right hm))
      (by
        intro b hb
        rw [Nat.and_distrib_right]
        have h1 : acc &&& b.mask = 0 := hdisj b (List.mem_cons_of_mem _ hb)
        have h2 : ((vf sf <<< lsbT sf.mask) &&& sf.mask) &&& b.mask = 0 :=
          and_eq_zero_of_subset (by rw [Nat.and_assoc, Nat.and_self])
            (hpair.1 b hb)
        rw [h1, h2]
        exact Nat.or_zero 0)
      (fun b hb => hmask b (List.mem_cons_of_mem _ hb)) hpair.2
    rw [hih, Nat.or_assoc]
    rfl

/-- Extracting one sub-field's mask from the OR-accumulated container picks out
exactly that sub-field's injected value. -/
theorem orFold_and_mask {subs : List SubField} (vf : SubField → Nat)
    {sf0 : SubField} (h0 : sf0 ∈ subs)
    (hpair : subs.Pairwise (fun a b => a.mask &&& b.mask = 0)) :
    orFold subs vf &&& sf0.mask = (vf sf0 <<< lsbT sf0.mask) &&& sf0.mask := by
  induction subs with
  | nil => cases h0
  | cons sf rest ih =>
    rw [List.pairwise_cons] at hpair
    show (((vf sf <<< lsbT sf.mask) &&& sf.mask) ||| orFold rest vf) &&& sf0.mask = _
    rw [Nat.and_distrib_right]
    rcases List.mem_cons.mp h0 with h1 | h1
    · subst h1
      have hz : orFold rest vf &&& sf0.mask = 0 :=
        orFold_and_zero vf (fun b hb => by
          rw [Nat.and_comm]
          exact hpair.1 b hb)
      rw [hz, Nat.and_assoc, Nat.and_self, Nat.or_zero]
    · have hz : ((vf sf <<< lsbT sf.mask) &&& sf.mask) &&& sf0.mask = 0 :=
        and_eq_zero_of_subset (by rw [Nat.and_assoc, Nat.and_self])
          (hpair.1 sf0 h1)
      rw [hz, ih h1 hpair.2, Nat.zero_or]

/-- Direction 1: OR-accumulating the extracted sub-fields of a container value
rebuilds the value's bits inside the mask union. -/
theorem orFold_extract_eq_and_union {v : Nat} :
    ∀ subs : List SubField, (∀ sf ∈ subs, IsLsbIdx sf.mask (lsbT sf.mask)) →
      orFold subs (fun sf => (v &&& sf.mask) >>> lsbT sf.mask)
        = v &&& unionMask subs := by
  intro subs
  induction subs with
  | nil =>
    intro _
    simp [orFold, unionMask]
  | cons sf rest ih =>
    intro h
    show (((v &&& sf.mask) >>> lsbT sf.mask <<< lsbT sf.mask) &&& sf.mask) |||
        orFold rest (fun sf => (v &&& sf.mask) >>> lsbT sf.mask)
      = v &&& unionMask (sf :: rest)
    rw [extract_reinject (h sf (List.mem_cons_self _ _)),
      ih (fun b hb => h b (List.mem_cons_of_mem _ hb))]
    show _ = v &&& (sf.mask ||| unionMask rest)
    rw [Nat.and_or_distrib_left]

/-! ## Column-level fusion lemmas -/

theorem zipWith_map_map {f : Nat → Nat → Nat} {g h : Nat → Nat} (l : List Nat) :
    List.zipWith f (l.map g) (l.map h) = l.map (fun v => f (g v) (h v)) := by
  rw [List.zipWith_map, List.zipWith_same]

theorem foldl_zipWith_map (base : List Nat) :
    ∀ (fs : List SubField) (h : Nat → Nat) (F : SubField → Nat → Nat → Nat)
      (g : SubField → Nat → Nat),
      fs.foldl (fun d sf => List.zipWith (F sf) d (base.map (g sf)))
          (base.map h)
        = base.map (fun v => fs.foldl (fun a sf => F sf a (g sf v)) (h v)) := by
  intro fs
  induction fs with
  | nil =>
    intro h F g
    rfl
  | cons sf rest ih =>
    intro h F g
    rw [List.foldl_cons, zipWith_map_map]
    exact ih (fun v => F sf (h v) (g sf v)) F g

theorem map_zero_eq_replicate (l : List Nat) :
    l.map (fun _ => (0 : Nat)) = List.replicate l.length 0 := by
  induction l with
  | nil => rfl
  | cons x rest ih => simp [List.replicate, ih]

theorem map_mod_of_lt {l : List Nat} {w : Nat} (h : ∀ v ∈ l, v < 2 ^ w) :
    l.map (fun v => v % 2 ^ w) = l := by
  induction l with
  | nil => rfl
  | cons x rest ih =>
    rw [List.map_cons, Nat.mod_eq_of_lt (h x (List.mem_cons_self _ _)),
      ih (fun v hv => h v (List.mem_cons_of_mem _ hv))]

theorem eq_range_map_getD (l : List Nat) :
    l = (List.range l.length).map (fun i => l.getD i 0) := by
  apply List.ext_getElem
  · simp
  · intro i h1 h2
    simp only [List.getElem_map, List.getElem_range]
    rw [List.getD_eq_getElem?_getD, List.getElem?_eq_getElem h1]
    rfl

/-! ## Loop step equations -/

theorem setColE_ok {b : RecordBatch} {n : String} {c : Column}
    (h : getCol b n = some c) (vals : List Nat) :
    setColE b n vals = .ok (setCol b n vals) := by
  unfold setColE
  rw [h]

def widthOf (b : RecordBatch) (n : String) : Option Nat :=
  (getCol b n).map (fun c => c.width)

theorem widthOf_eq_findW (b : RecordBatch) (n : String) :
    widthOf b n = findW (schemaOf b) n := by
  induction b with
  | nil => rfl
  | cons p rest ih =>
    by_cases hp : p.1 = n
    · rw [widthOf, getCol_cons_pos rest hp]
      show some p.2.width = findW ((p.1, p.2.width) :: schemaOf rest) n
      unfold findW
      rw [List.find?_cons]
      have hb : (p.1 == n) = true := by simp [hp]
      simp [hb]
    · rw [widthOf, getCol_cons_neg rest hp]
      show (getCol rest n).map (fun c => c.width) =
        findW ((p.1, p.2.width) :: schemaOf rest) n
      unfold findW
      rw [List.find?_cons]
      have hb : (p.1 == n) = false := by simp [hp]
      simp only [hb]
      exact ih

/-- The names a record-unpacker entry writes to. -/
def targetsOfName (composed : List (String × List SubField)) (n : String) :
    List String :=
  match findComposed composed n with
  | some subs => subs.map (fun sf => sf.name)
  | none => [n]

def targetsOf (composed : List (String × List SubField)) (names : List String) :
    List String :=
  names.flatMap (targetsOfName composed)

theorem unpackLoop_cons_composed {composed : List (String × List SubField)}
    {dim_name : String} {subs : List SubField} {col : Column}
    {acc A1 : RecordBatch} (rest : List (String × Column)) (data : RecordBatch)
    (hfc : findComposed composed dim_name = some subs)
    (hsl : unpackSubsLoop subs col acc = .ok A1) :
    unpackLoop composed ((dim_name, col) :: rest) data acc =
      unpackLoop composed rest data A1 := by
  unfold unpackLoop
  split
  · rename_i subs2 hfc2
    rw [hfc] at hfc2
    cases Option.some.inj hfc2
    split
    · rename_i acc1 hsl2
      rw [hsl] at hsl2
      cases Except.ok.inj hsl2
      conv_lhs => unfold unpackLoop
    · rename_i e hsl2
      rw [hsl] at hsl2
      exact Except.noConfusion hsl2
  · rename_i hfc2
    rw [hfc] at hfc2
    exact Option.noConfusion hfc2

theorem unpackLoop_cons_plain {composed : List (String × List SubField)}
    {dim_name : String} {col : Column} {acc acc1 : RecordBatch}
    (rest : List (String × Column)) (data : RecordBatch)
    (hfc : findComposed composed dim_name = none)
    (hse : setColE acc dim_name col.data = .ok acc1) :
    unpackLoop composed ((dim_name, col) :: rest) data acc =
      unpackLoop composed rest data acc1 := by
  unfold unpackLoop
  split
  · rename_i subs2 hfc2
    rw [hfc] at hfc2
    exact Option.noConfusion hfc2
  · split
    · rename_i a1 hse2
      rw [hse] at hse2
      cases Except.ok.inj hse2
      conv_lhs => unfold unpackLoop
    · rename_i e hse2
      rw [hse] at hse2
      exact Except.noConfusion hse2

theorem repack_composed_dim_cons {dim_name : String} {sf : SubField}
    {rep str : RecordBatch} {dest src : Column} {buf : List Nat}
    (rest : List SubField)
    (hdest : getCol rep dim_name = some dest)
    (hsrc : getCol str sf.name = some src)
    (hp : pack dest.data src.data sf.mask dest.width true = (.ok none, buf)) :
    _repack_composed_dim dim_name (sf :: rest) rep str =
      _repack_composed_dim dim_name rest (setColData rep dim_name buf) str := by
  unfold _repack_composed_dim
  split
  · rename_i hdest2
    rw [hdest] at hdest2
    exact Option.noConfusion hdest2
  · rename_i dest2 hdest2
    rw [hdest] at hdest2
    cases Option.some.inj hdest2
    split
    · rename_i hsrc2
      rw [hsrc] at hsrc2
      exact Option.noConfusion hsrc2
    · rename_i src2 hsrc2
      rw [hsrc] at hsrc2
      cases Option.some.inj hsrc2
      split
      · rename_i u buf2 hp2
        rw [hp] at hp2
        cases hp2
        conv_lhs => unfold _repack_composed_dim
      · rename_i v mx buf2 hp2
        rw [hp] at hp2
        cases hp2
      · rename_i e buf2 hne hp2
        rw [hp] at hp2
        cases hp2

theorem repackLoop_cons_composed {composed : List (String × List SubField)}
    {dim_name : String} {subs : List SubField} {rep str rep1 str1 : RecordBatch}
    (rest : List String)
    (hfc : findComposed composed dim_name = some subs)
    (hrd : _repack_composed_dim dim_name subs rep str = (.ok (), rep1, str1)) :
    repackLoop composed (dim_name :: rest) rep str =
      repackLoop composed rest rep1 str1 := by
  unfold repackLoop
  split
  · rename_i subs2 hfc2
    rw [hfc] at hfc2
    cases Option.some.inj hfc2
    split
    · rename_i u rep2 str2 hrd2
      rw [hrd] at hrd2
      cases hrd2
      conv_lhs => unfold repackLoop
    · rename_i e rep2 str2 hrd2
      rw [hrd] at hrd2
      cases hrd2
  · rename_i hfc2
    rw [hfc] at hfc2
    exact Option.noConfusion hfc2

theorem repackLoop_cons_plain {composed : List (String × List SubField)}
    {dim_name : String} {rep str rep1 : RecordBatch} {col : Column}
    (rest : List String)
    (hfc : findComposed composed dim_name = none)
    (hg : getCol str dim_name = some col)
    (hse : setColE rep dim_name col.data = .ok rep1) :
    repackLoop composed (dim_name :: rest) rep str =
      repackLoop composed rest rep1 str := by
  unfold repackLoop
  split
  · rename_i subs2 hfc2
    rw [hfc] at hfc2
    exact Option.noConfusion hfc2
  · split
    · rename_i hg2
      rw [hg] at hg2
      exact Option.noConfusion hg2
    · rename_i col2 hg2
      rw [hg] at hg2
      cases Option.some.inj hg2
      split
      · rename_i rep2 hse2
        rw [hse] at hse2
        cases Except.ok.inj hse2
        conv_lhs => unfold repackLoop
      · rename_i e hse2
        rw [hse] at hse2
        exact Except.noConfusion hse2

theorem mem_targetsOf {composed : List (String × List SubField)}
    {names : List String} {n x : String} (hn : n ∈ names)
    (hx : x ∈ targetsOfName composed n) : x ∈ targetsOf composed names := by
  unfold targetsOf
  exact List.mem_flatMap.mpr ⟨n, hn, hx⟩

theorem targetsOf_cons (composed : List (String × List SubField)) (n : String)
    (names : List String) :
    targetsOf composed (n :: names) =
      targetsOfName composed n ++ targetsOf composed names := by
  simp [targetsOf]

/-- Success and column-wise characterization of the inner sub-field loop of the
record unpacker. -/
theorem unpackSubsLoop_ok (src : Column) :
    ∀ (subs : List SubField) (acc : RecordBatch),
      (∀ sf ∈ subs, ∃ c : Column, getCol acc sf.name = some c) →
      ∃ A, unpackSubsLoop subs src acc = .ok A ∧
        schemaOf A = schemaOf acc ∧
        (∀ n, n ∉ subs.map (fun sf => sf.name) → getCol A n = getCol acc n) ∧
        ((subs.map (fun sf => sf.name)).Nodup →
          ∀ sf ∈ subs, ∀ c : Column, getCol acc sf.name = some c →
            getCol A sf.name =
              some ⟨c.width,
                (unpack src.data sf.mask 8).map (fun v => v % 2 ^ c.width)⟩) := by
  intro subs
  induction subs with
  | nil =>
    intro acc _
    refine ⟨acc, rfl, rfl, fun n _ => rfl, ?_⟩
    intro _ sf hsf
    cases hsf
  | cons sf rest ih =>
    intro acc hpres
    obtain ⟨c, hc⟩ := hpres sf (List.mem_cons_self _ _)
    have hstep : unpackSubsLoop (sf :: rest) src acc =
        unpackSubsLoop rest src (setCol acc sf.name (unpack src.data sf.mask 8)) := by
      conv_lhs => unfold unpackSubsLoop
      rw [setColE_ok hc]
    have hpres1 : ∀ b ∈ rest, ∃ c2 : Column,
        getCol (setCol acc sf.name (unpack src.data sf.mask 8)) b.name = some c2 := by
      intro b hb
      by_cases hbn : b.name = sf.name
      · rw [hbn]
        exact ⟨_, getCol_setCol_self hc _⟩
      · rw [getCol_setCol_ne hbn]
        exact hpres b (List.mem_cons_of_mem _ hb)
    obtain ⟨A, hA, hsch, hframe, hwrite⟩ :=
      ih (setCol acc sf.name (unpack src.data sf.mask 8)) hpres1
    refine ⟨A, ?_, ?_, ?_, ?_⟩
    · rw [hstep]
      exact hA
    · rw [hsch, schemaOf_setCol]
    · intro n hn
      rw [List.map_cons, List.mem_cons] at hn
      push_neg at hn
      rw [hframe n hn.2, getCol_setCol_ne hn.1]
    · intro hnd b hb c2 hc2
      rw [List.map_cons, List.nodup_cons] at hnd
      rcases List.mem_cons.mp hb with h1 | h1
      · subst h1
        have hcc : c2 = c := by
          rw [hc] at hc2
          exact (Option.some.inj hc2).symm
        subst hcc
        rw [hframe b.name hnd.1]
        exact getCol_setCol_self hc _
      · have hbn : b.name ≠ sf.name := by
          intro hcn
          exact hnd.1 (hcn ▸ List.mem_map_of_mem (fun q => q.name) h1)
        have hc2a : getCol (setCol acc sf.name (unpack src.data sf.mask 8)) b.name
            = some c2 := by
          rw [getCol_setCol_ne hbn]
          exact hc2
        exact hwrite hnd.2 b h1 c2 hc2a

/-- Success and column-wise characterization of the record unpacker's main
loop, under distinct write targets. -/
theorem unpackLoop_ok (composed : List (String × List SubField)) :
    ∀ (entries : List (String × Column)) (data acc : RecordBatch),
      (∀ n ∈ targetsOf composed (entries.map (fun p => p.1)),
        ∃ c : Column, getCol acc n = some c) →
      (targetsOf composed (entries.map (fun p => p.1))).Nodup →
      ∃ A, unpackLoop composed entries data acc = (.ok (), data, A) ∧
        schemaOf A = schemaOf acc ∧
        (∀ n, n ∉ targetsOf composed (entries.map (fun p => p.1)) →
          getCol A n = getCol acc n) ∧
        ∀ e ∈ entries,
          (∀ subs, findComposed composed e.1 = some subs →
            ∀ sf ∈ subs, ∀ c : Column, getCol acc sf.name = some c →
              getCol A sf.name =
                some ⟨c.width,
                  (unpack e.2.data sf.mask 8).map (fun v => v % 2 ^ c.width)⟩) ∧
          (findComposed composed e.1 = none →
            ∀ c : Column, getCol acc e.1 = some c →
              getCol A e.1 = some ⟨c.width, e.2.data.map (fun v => v % 2 ^ c.width)⟩) := by
  intro entries
  induction entries with
  | nil =>
    intro data acc _ _
    refine ⟨acc, rfl, rfl, fun n _ => rfl, ?_⟩
    intro e he
    cases he
  | cons e0 rest ih =>
    obtain ⟨dim_name, col⟩ := e0
    intro data acc hpres hnd
    simp only [List.map_cons] at hpres hnd
    rw [targetsOf_cons] at hpres hnd
    rw [List.nodup_append] at hnd
    obtain ⟨hnd1, hnd2, hdisjt⟩ := hnd
    cases hfc : findComposed composed dim_name with
    | some subs =>
      have htn : targetsOfName composed dim_name = subs.map (fun sf => sf.name) := by
        unfold targetsOfName
        rw [hfc]
      rw [htn] at hpres hnd1 hdisjt
      obtain ⟨A1, hA1, hsch1, hframe1, hwrite1⟩ :=
        unpackSubsLoop_ok col subs acc
          (fun sf hsf => hpres sf.name
            (List.mem_append_left _ (List.mem_map_of_mem (fun q => q.name) hsf)))
      have hstep := unpackLoop_cons_composed rest data hfc hA1
      obtain ⟨A, hA, hsch2, hframe2, hfacts⟩ := ih data A1
        (by
          intro n hn
          rw [hframe1 n (fun hmem => hdisjt hmem hn)]
          exact hpres n (List.mem_append_right _ hn))
        hnd2
      refine ⟨A, hstep.trans hA, hsch2.trans hsch1, ?_, ?_⟩
      · intro n hn
        simp only [List.map_cons] at hn
        rw [targetsOf_cons, htn] at hn
        have hn1 : n ∉ subs.map (fun sf => sf.name) :=
          fun hmem => hn (List.mem_append_left _ hmem)
        have hn2 : n ∉ targetsOf composed (rest.map (fun p => p.1)) :=
          fun hmem => hn (List.mem_append_right _ hmem)
        rw [hframe2 n hn2, hframe1 n hn1]
      · intro e he
        rcases List.mem_cons.mp he with h1 | h1
        · subst h1
          constructor
          · intro subs2 hfc2 sf hsf c hcol
            rw [hfc] at hfc2
            cases Option.some.inj hfc2
            have hmem : sf.name ∈ subs.map (fun q => q.name) :=
              List.mem_map_of_mem (fun q => q.name) hsf
            have hnot : sf.name ∉ targetsOf composed (rest.map (fun p => p.1)) :=
              fun hc2 => hdisjt hmem hc2
            rw [hframe2 sf.name hnot]
            exact hwrite1 hnd1 sf hsf c hcol
          · intro hfc2
            rw [hfc] at hfc2
            exact Option.noConfusion hfc2
        · have hins : ∀ x, x ∈ targetsOfName composed e.1 →
              x ∈ targetsOf composed (rest.map (fun p => p.1)) :=
            fun x hx =>
              mem_targetsOf (List.mem_map_of_mem (fun p => p.1) h1) hx
          constructor
          · intro subs2 hfc2 sf hsf c hcol
            have hsfx : sf.name ∈ targetsOfName composed e.1 := by
              unfold targetsOfName
              rw [hfc2]
              exact List.mem_map_of_mem (fun q => q.name) hsf
            have hmemr := hins sf.name hsfx
            have hnot : sf.name ∉ subs.map (fun q => q.name) :=
              fun hc2 => hdisjt hc2 hmemr
            exact (hfacts e h1).1 subs2 hfc2 sf hsf c
              (by rw [hframe1 sf.name hnot]; exact hcol)
          · intro hfc2 c hcol
            have hsfx : e.1 ∈ targetsOfName composed e.1 := by
              unfold targetsOfName
              rw [hfc2]
              exact List.mem_cons_self _ _
            have hmemr := hins e.1 hsfx
            have hnot : e.1 ∉ subs.map (fun q => q.name) :=
              fun hc2 => hdisjt hc2 hmemr
            exact (hfacts e h1).2 hfc2 c
              (by rw [hframe1 e.1 hnot]; exact hcol)
    | none =>
      have htn : targetsOfName composed dim_name = [dim_name] := by
        unfold targetsOfName
        rw [hfc]
      rw [htn] at hpres hnd1 hdisjt
      obtain ⟨c, hc⟩ := hpres dim_name (List.mem_append_left _ (List.mem_cons_self _ _))
      have hstep := unpackLoop_cons_plain rest data hfc (setColE_ok hc col.data)
      have hset := getCol_setCol_self hc col.data
      obtain ⟨A, hA, hsch2, hframe2, hfacts⟩ := ih data
        (setCol acc dim_name col.data)
        (by
          intro n hn
          have hne : n ≠ dim_name := by
            intro hcn
            exact hdisjt (hcn ▸ List.mem_cons_self _ _) hn
          rw [getCol_setCol_ne hne]
          exact hpres n (List.mem_append_right _ hn))
        hnd2
      refine ⟨A, hstep.trans hA, hsch2.trans (schemaOf_setCol acc dim_name col.data), ?_, ?_⟩
      · intro n hn
        simp only [List.map_cons] at hn
        rw [targetsOf_cons, htn] at hn
        have hn1 : n ≠ dim_name := by
          intro hcn
          exact hn (List.mem_append_left _ (hcn ▸ List.mem_cons_self _ _))
        have hn2 : n ∉ targetsOf composed (rest.map (fun p => p.1)) :=
          fun hmem => hn (List.mem_append_right _ hmem)
        rw [hframe2 n hn2, getCol_setCol_ne hn1]
      · intro e he
        rcases List.mem_cons.mp he with h1 | h1
        · subst h1
          constructor
          · intro subs2 hfc2
            rw [hfc] at hfc2
            exact Option.noConfusion hfc2
          · intro _ c2 hcol
            have hcc : c2 = c := by
              rw [hc] at hcol
              exact (Option.some.inj hcol).symm
            subst hcc
            have hnot : (dim_name : String) ∉
                targetsOf composed (rest.map (fun p => p.1)) :=
              fun hc2 => hdisjt (List.mem_cons_self _ _) hc2
            rw [hframe2 dim_name hnot]
            exact hset
        · have hins : ∀ x, x ∈ targetsOfName composed e.1 →
              x ∈ targetsOf composed (rest.map (fun p => p.1)) :=
            fun x hx =>
              mem_targetsOf (List.mem_map_of_mem (fun p => p.1) h1) hx
          constructor
          · intro subs2 hfc2 sf hsf c2 hcol
            have hsfx : sf.name ∈ targetsOfName composed e.1 := by
              unfold targetsOfName
              rw [hfc2]
              exact List.mem_map_of_mem (fun q => q.name) hsf
            have hne : sf.name ≠ dim_name := by
              intro hcn
              exact hdisjt (hcn ▸ List.mem_cons_self _ _) (hins sf.name hsfx)
            exact (hfacts e h1).1 subs2 hfc2 sf hsf c2
              (by rw [getCol_setCol_ne hne]; exact hcol)
          · intro hfc2 c2 hcol
            have hsfx : e.1 ∈ targetsOfName composed e.1 := by
              unfold targetsOfName
              rw [hfc2]
              exact List.mem_cons_self _ _
            have hne : e.1 ≠ dim_name := by
              intro hcn
              exact hdisjt (hcn ▸ List.mem_cons_self _ _) (hins e.1 hsfx)
            exact (hfacts e h1).2 hfc2 c2
              (by rw [getCol_setCol_ne hne]; exact hcol)

/-- The data of a named column (defaulting to the empty column). -/
def colData (y : RecordBatch) (n : String) : List Nat :=
  ((getCol y n).map (fun c => c.data)).getD []

/-- Expected contents of a repacked composed column: the fold of in-place
packed stores of the sub-field columns over the initial destination data. -/
def expectedPacked (y : RecordBatch) (w : Nat) (subs : List SubField)
    (dest : List Nat) : List Nat :=
  subs.foldl (fun d sf =>
    List.zipWith (packStep w sf.mask (lsbT sf.mask)) d (colData y sf.name)) dest

/-- Success and column characterization of `_repack_composed_dim`. -/
theorem repack_composed_dim_ok (dim_name : String) (y : RecordBatch) :
    ∀ (subs : List SubField) (rep : RecordBatch) (cdim : Column),
      getCol rep dim_name = some cdim →
      (∀ sf ∈ subs, ∃ col : Column, getCol y sf.name = some col ∧
        ∃ m, listMax col.data = some m ∧ m ≤ sf.mask >>> lsbT sf.mask) →
      ∃ R, _repack_composed_dim dim_name subs rep y = (.ok (), R, y) ∧
        schemaOf R = schemaOf rep ∧
        (∀ n, n ≠ dim_name → getCol R n = getCol rep n) ∧
        getCol R dim_name =
          some ⟨cdim.width, expectedPacked y cdim.width subs cdim.data⟩ := by
  intro subs
  induction subs with
  | nil =>
    intro rep cdim hdim _
    refine ⟨rep, rfl, rfl, fun n _ => rfl, ?_⟩
    rw [hdim]
    rfl
  | cons sf rest ih =>
    intro rep cdim hdim hsubs
    obtain ⟨src, hsrc, m, hm, hle⟩ := hsubs sf (List.mem_cons_self _ _)
    have hpack : pack cdim.data src.data sf.mask cdim.width true =
        (.ok none,
         List.zipWith (packStep cdim.width sf.mask (lsbT sf.mask))
           cdim.data src.data) :=
      pack_inplace_ok cdim.data cdim.width hm hle
    have hstep := repack_composed_dim_cons rest hdim hsrc hpack
    have hdim1 : getCol (setColData rep dim_name
        (List.zipWith (packStep cdim.width sf.mask (lsbT sf.mask))
          cdim.data src.data)) dim_name =
        some ⟨cdim.width,
          List.zipWith (packStep cdim.width sf.mask (lsbT sf.mask))
            cdim.data src.data⟩ :=
      getCol_setColData_self hdim _
    obtain ⟨R, hR, hsch, hframe, hfin⟩ := ih _ _ hdim1
      (fun b hb => hsubs b (List.mem_cons_of_mem _ hb))
    refine ⟨R, hstep.trans hR, hsch.trans (schemaOf_setColData _ _ _), ?_, ?_⟩
    · intro n hn
      rw [hframe n hn, getCol_setColData_ne hn]
    · rw [hfin]
      show _ = some ⟨cdim.width, expectedPacked y cdim.width (sf :: rest) cdim.data⟩
      unfold expectedPacked
      rw [List.foldl_cons]
      have hcd : colData y sf.name = src.data := by
        unfold colData
        rw [hsrc]
        rfl
      rw [hcd]

/-- Success and column characterization of the repacker's main loop. -/
theorem repackLoop_ok (composed : List (String × List SubField))
    (y : RecordBatch) :
    ∀ (names : List String) (rep : RecordBatch),
      names.Nodup →
      (∀ n ∈ names, ∃ c : Column, getCol rep n = some c) →
      (∀ n ∈ names, ∀ subs, findComposed composed n = some subs →
        ∀ sf ∈ subs, ∃ col : Column, getCol y sf.name = some col ∧
          ∃ m, listMax col.data = some m ∧ m ≤ sf.mask >>> lsbT sf.mask) →
      (∀ n ∈ names, findComposed composed n = none →
        ∃ col : Column, getCol y n = some col) →
      ∃ R, repackLoop composed names rep y = (.ok (), R, y) ∧
        schemaOf R = schemaOf rep ∧
        (∀ n, n ∉ names → getCol R n = getCol rep n) ∧
        ∀ n ∈ names,
          (∀ subs, findComposed composed n = some subs →
            ∀ c : Column, getCol rep n = some c →
              getCol R n = some ⟨c.width, expectedPacked y c.width subs c.data⟩) ∧
          (findComposed composed n = none →
            ∀ c : Column, getCol rep n = some c →
              ∀ col : Column, getCol y n = some col →
                getCol R n =
                  some ⟨c.width, col.data.map (fun v => v % 2 ^ c.width)⟩) := by
  intro names
  induction names with
  | nil =>
    intro rep _ _ _ _
    refine ⟨rep, rfl, rfl, fun n _ => rfl, ?_⟩
    intro n hn
    cases hn
  | cons n0 rest ih =>
    intro rep hnd hrep hsrcs hplain
    rw [List.nodup_cons] at hnd
    obtain ⟨c0, hc0⟩ := hrep n0 (List.mem_cons_self _ _)
    cases hfc : findComposed composed n0 with
    | some subs =>
      obtain ⟨R1, hR1, hsch1, hframe1, hdim1⟩ :=
        repack_composed_dim_ok n0 y subs rep c0 hc0
          (hsrcs n0 (List.mem_cons_self _ _) subs hfc)
      have hstep := repackLoop_cons_composed rest hfc hR1
      obtain ⟨R, hR, hsch2, hframe2, hfacts⟩ := ih R1 hnd.2
        (by
          intro n hn
          have hne : n ≠ n0 := fun hcn => hnd.1 (hcn ▸ hn)
          rw [hframe1 n hne]
          exact hrep n (List.mem_cons_of_mem _ hn))
        (fun n hn => hsrcs n (List.mem_cons_of_mem _ hn))
        (fun n hn => hplain n (List.mem_cons_of_mem _ hn))
      refine ⟨R, hstep.trans hR, hsch2.trans hsch1, ?_, ?_⟩
      · intro n hn
        rw [List.mem_cons] at hn
        push_neg at hn
        rw [hframe2 n hn.2, hframe1 n hn.1]
      · intro n hn
        rcases List.mem_cons.mp hn with h1 | h1
        · subst h1
          constructor
          · intro subs2 hfc2 c hc
            rw [hfc] at hfc2
            cases Option.some.inj hfc2
            have hcc : c = c0 := by
              rw [hc0] at hc
              exact (Option.some.inj hc).symm
            subst hcc
            rw [hframe2 n hnd.1]
            exact hdim1
          · intro hfc2
            rw [hfc] at hfc2
            exact Option.noConfusion hfc2
        · have hne : n ≠ n0 := by
            intro hcn
            exact hnd.1 (hcn ▸ h1)
          constructor
          · intro subs2 hfc2 c hc
            exact (hfacts n h1).1 subs2 hfc2 c
              (by rw [hframe1 n hne]; exact hc)
          · intro hfc2 c hc col hcol
            exact (hfacts n h1).2 hfc2 c
              (by rw [hframe1 n hne]; exact hc) col hcol
    | none =>
      obtain ⟨col, hcol⟩ := hplain n0 (List.mem_cons_self _ _) hfc
      have hstep := repackLoop_cons_plain rest hfc hcol (setColE_ok hc0 col.data)
      have hset := getCol_setCol_self hc0 col.data
      obtain ⟨R, hR, hsch2, hframe2, hfacts⟩ := ih (setCol rep n0 col.data) hnd.2
        (by
          intro n hn
          have hne : n ≠ n0 := fun hcn => hnd.1 (hcn ▸ hn)
          rw [getCol_setCol_ne hne]
          exact hrep n (List.mem_cons_of_mem _ hn))
        (fun n hn => hsrcs n (List.mem_cons_of_mem _ hn))
        (fun n hn => hplain n (List.mem_cons_of_mem _ hn))
      refine ⟨R, hstep.trans hR,
        hsch2.trans (schemaOf_setCol rep n0 col.data), ?_, ?_⟩
      · intro n hn
        rw [List.mem_cons] at hn
        push_neg at hn
        rw [hframe2 n hn.2, getCol_setCol_ne hn.1]
      · intro n hn
        rcases List.mem_cons.mp hn with h1 | h1
        · subst h1
          constructor
          · intro subs2 hfc2
            rw [hfc] at hfc2
            exact Option.noConfusion hfc2
          · intro _ c hc col2 hcol2
            have hcc : c = c0 := by
              rw [hc0] at hc
              exact (Option.some.inj hc).symm
            subst hcc
            have hcc2 : col2 = col := by
              rw [hcol] at hcol2
              exact (Option.some.inj hcol2).symm
            subst hcc2
            rw [hframe2 n hnd.1]
            exact hset
        · have hne : n ≠ n0 := by
            intro hcn
            exact hnd.1 (hcn ▸ h1)
          constructor
          · intro subs2 hfc2 c hc
            exact (hfacts n h1).1 subs2 hfc2 c
              (by rw [getCol_setCol_ne hne]; exact hc)
          · intro hfc2 c hc col2 hcol2
            exact (hfacts n h1).2 hfc2 c
              (by rw [getCol_setCol_ne hne]; exact hc) col2 hcol2

/-! ## Schema bridge lemmas -/

theorem names_eq_schema_names (b : RecordBatch) :
    b.map (fun p => p.1) = (schemaOf b).map Prod.fst := by
  unfold schemaOf
  rw [List.map_map]
  rfl

theorem findW_eq_none_iff (dt : List (String × Nat)) (n : String) :
    findW dt n = none ↔ n ∉ dt.map Prod.fst := by
  induction dt with
  | nil => simp [findW]
  | cons p rest ih =>
    unfold findW
    rw [List.find?_cons]
    by_cases hp : p.1 = n
    · have hb : (p.1 == n) = true := by simp [hp]
      simp [hb, hp]
    · have hb : (p.1 == n) = false := by simp [hp]
      unfold findW at ih
      simp only [hb, List.map_cons, List.mem_cons]
      rw [ih]
      constructor
      · intro h hc
        rcases hc with hc | hc
        · exact hp hc.symm
        · exact h hc
      · intro h hc
        exact h (Or.inr hc)

theorem width_unique {dt : List (String × Nat)} {n : String} {w1 w2 : Nat}
    (h1 : (n, w1) ∈ dt) (h2 : (n, w2) ∈ dt) (hnd : (dt.map Prod.fst).Nodup) :
    w1 = w2 := by
  have e1 := findW_of_mem_nodup h1 hnd
  have e2 := findW_of_mem_nodup h2 hnd
  rw [e1] at e2
  exact Option.some.inj e2

theorem exists_width_of_mem_names {dt : List (String × Nat)} {n : String}
    (h : n ∈ dt.map Prod.fst) : ∃ w, (n, w) ∈ dt := by
  obtain ⟨p, hp, hp1⟩ := List.mem_map.mp h
  exact ⟨p.2, by rw [← hp1]; exact hp⟩

/-- Unpacking a composed-field lookup. -/
theorem findComposed_some_mem {composed : List (String × List SubField)}
    {n : String} {subs : List SubField}
    (h : findComposed composed n = some subs) : (n, subs) ∈ composed := by
  unfold findComposed at h
  rw [Option.map_eq_some'] at h
  obtain ⟨q, hq, hq2⟩ := h
  have h1 : q.1 = n := by simpa using List.find?_some hq
  have h2 : q ∈ composed := List.mem_of_find?_eq_some hq
  have : q = (n, subs) := by
    obtain ⟨q1, q2⟩ := q
    simp only at h1 hq2
    rw [h1, hq2]
  exact this ▸ h2

/-- The descriptor facts available for a composed field of the physical
schema. -/
theorem descr_composed_spec {P : List (String × Nat)}
    {composed : List (String × List SubField)} {sw : String → Nat}
    (hwf : descrWF P composed sw) {n : String} {w : Nat} {subs : List SubField}
    (hmem : (n, w) ∈ P) (hfc : findComposed composed n = some subs) :
    subs ≠ [] ∧ subs.Pairwise (fun a b => a.mask &&& b.mask = 0) ∧
      ∀ sf ∈ subs, subFieldWF sw w sf := by
  have hq := hwf.2.2 (n, subs) (findComposed_some_mem hfc)
  have hfw : findW P n = some w := findW_of_mem_nodup hmem hwf.1
  unfold optionAll at hq
  rw [hfw] at hq
  exact hq

theorem mem_expandDtype_sub {P : List (String × Nat)}
    {composed : List (String × List SubField)} {sw : String → Nat}
    {n : String} {w : Nat} {subs : List SubField} {sf : SubField}
    (hmem : (n, w) ∈ P) (hfc : findComposed composed n = some subs)
    (hsf : sf ∈ subs) :
    (sf.name, sw sf.name) ∈ expandDtype composed sw P := by
  unfold expandDtype
  apply List.mem_flatMap.mpr
  refine ⟨(n, w), hmem, ?_⟩
  unfold expandEntry
  rw [show findComposed composed (n, w).1 = some subs from hfc]
  exact List.mem_map_of_mem _ hsf

theorem mem_expandDtype_plain {P : List (String × Nat)}
    {composed : List (String × List SubField)} {sw : String → Nat}
    {n : String} {w : Nat}
    (hmem : (n, w) ∈ P) (hfc : findComposed composed n = none) :
    (n, w) ∈ expandDtype composed sw P := by
  unfold expandDtype
  apply List.mem_flatMap.mpr
  refine ⟨(n, w), hmem, ?_⟩
  unfold expandEntry
  rw [show findComposed composed (n, w).1 = none from hfc]
  exact List.mem_cons_self _ _

/-- The unpacker's write targets are exactly the expanded schema's names. -/
theorem targetsOf_eq_expand_names (composed : List (String × List SubField))
    (sw : String → Nat) :
    ∀ P : List (String × Nat),
      targetsOf composed (P.map Prod.fst) =
        (expandDtype composed sw P).map Prod.fst := by
  intro P
  induction P with
  | nil => rfl
  | cons p rest ih =>
    rw [List.map_cons, targetsOf_cons]
    show _ = ((expandEntry composed sw p ++ expandDtype composed sw rest).map Prod.fst)
    rw [List.map_append, ih]
    congr 1
    unfold targetsOfName expandEntry
    cases hfc : findComposed composed p.1 with
    | some subs =>
      rw [List.map_map]
      rfl
    | none => rfl

theorem expandEntry_ne_nil {P : List (String × Nat)}
    {composed : List (String × List SubField)} {sw : String → Nat}
    (hwf : descrWF P composed sw) {p : String × Nat} (hp : p ∈ P) :
    expandEntry composed sw p ≠ [] := by
  unfold expandEntry
  cases hfc : findComposed composed p.1 with
  | some subs =>
    have hs := descr_composed_spec hwf (show (p.1, p.2) ∈ P by simpa using hp) hfc
    simpa using hs.1
  | none => simp

theorem expandDtype_ne_nil {P : List (String × Nat)}
    {composed : List (String × List SubField)} {sw : String → Nat}
    (hwf : descrWF P composed sw) (hP : P ≠ []) :
    expandDtype composed sw P ≠ [] := by
  cases P with
  | nil => exact absurd rfl hP
  | cons p rest =>
    unfold expandDtype
    rw [List.flatMap_cons]
    intro hc
    have h1 := List.append_eq_nil.mp hc
    exact expandEntry_ne_nil hwf (List.mem_cons_self p rest) h1.1

theorem numRows_eq {b : RecordBatch} {dt : List (String × Nat)} {N : Nat}
    (hsch : schemaOf b = dt)
    (hlen : ∀ p ∈ b, p.2.data.length = N) (hne : dt ≠ []) : numRows b = N := by
  cases b with
  | nil =>
    rw [← hsch] at hne
    exact absurd rfl hne
  | cons p rest =>
    exact hlen p (List.mem_cons_self _ _)

theorem numRows_eq_of_head {b : RecordBatch} {n0 : String} {w0 : Nat}
    {dt : List (String × Nat)} (hsch : schemaOf b = (n0, w0) :: dt)
    {c : Column} (hc : getCol b n0 = some c) : numRows b = c.data.length := by
  cases b with
  | nil => simp [schemaOf] at hsch
  | cons p rest =>
    simp only [schemaOf, List.map_cons, List.cons.injEq] at hsch
    have hn : p.1 = n0 := congrArg Prod.fst hsch.1
    rw [getCol_cons_pos rest hn] at hc
    rw [show numRows (p :: rest) = p.2.data.length from rfl,
      Option.some.inj hc]

theorem expectedPacked_length {y : RecordBatch} {N : Nat} :
    ∀ (subs : List SubField) {w : Nat} {dest : List Nat},
      dest.length = N → (∀ sf ∈ subs, (colData y sf.name).length = N) →
      (expectedPacked y w subs dest).length = N := by
  intro subs
  induction subs with
  | nil =>
    intro w dest hd _
    exact hd
  | cons sf rest ih =>
    intro w dest hd hsubs
    unfold expectedPacked
    rw [List.foldl_cons]
    have h1 : (List.zipWith (packStep w sf.mask (lsbT sf.mask)) dest
        (colData y sf.name)).length = N := by
      rw [List.length_zipWith, hd, hsubs sf (List.mem_cons_self _ _)]
      exact Nat.min_self N
    exact ih h1 (fun b hb => hsubs b (List.mem_cons_of_mem _ hb))

/-- Columns of a well-formed batch, by schema entry. -/
theorem batchWF_getCol {b : RecordBatch} {dt : List (String × Nat)} {N : Nat}
    (hb : batchWF b dt N) (hnd : (dt.map Prod.fst).Nodup) {n : String} {w : Nat}
    (hmem : (n, w) ∈ dt) :
    ∃ col : Column, getCol b n = some col ∧ col.width = w ∧
      col.data.length = N ∧ ∀ v ∈ col.data, v < 2 ^ w := by
  have hsch := hb.1
  have hmem2 : (n, w) ∈ schemaOf b := hsch ▸ hmem
  obtain ⟨p, hp, hp1⟩ := List.mem_map.mp hmem2
  have hn : p.1 = n := congrArg Prod.fst hp1
  have hw : p.2.width = w := congrArg Prod.snd hp1
  have hbnd : (b.map (fun q => q.1)).Nodup := by
    rw [names_eq_schema_names, hsch]
    exact hnd
  have hget : getCol b n = some p.2 := by
    have : (n, p.2) ∈ b := by
      obtain ⟨p1, pc⟩ := p
      simp only at hn
      rw [← hn]
      exact hp
    exact getCol_of_mem_nodup this hbnd
  refine ⟨p.2, hget, hw, (hb.2 p hp).1, ?_⟩
  intro v hv
  have := (hb.2 p hp).2 v hv
  rwa [hw] at this

/-! ## The round trip -/

theorem unpack_eq_map (src : List Nat) (mask d : Nat) :
    unpack src mask d =
      src.map (fun s => ((s &&& mask) >>> lsbT mask) % 2 ^ d) :=
  rfl

theorem unpack_length (src : List Nat) (mask d : Nat) :
    (unpack src mask d).length = src.length := by
  rw [unpack_eq_map]
  exact List.length_map _ _

theorem mem_unpack {src : List Nat} {mask d u0 : Nat}
    (h : u0 ∈ unpack src mask d) :
    ∃ v ∈ src, u0 = ((v &&& mask) >>> lsbT mask) % 2 ^ d := by
  rw [unpack_eq_map] at h
  obtain ⟨v, hv, he⟩ := List.mem_map.mp h
  exact ⟨v, hv, he.symm⟩

theorem getD_mem_of_lt {l : List Nat} {i : Nat} (h : i < l.length) :
    l.getD i 0 ∈ l := by
  rw [List.getD_eq_getElem?_getD, List.getElem?_eq_getElem h]
  exact List.getElem_mem h

theorem extract_lt_payload {sw : String → Nat} {wc : Nat} {sf : SubField}
    (hsf : subFieldWF sw wc sf) (v : Nat) :
    (v &&& sf.mask) >>> lsbT sf.mask < 2 ^ payloadBits sf.mask := by
  have h1 := extract_le_max v sf.mask (lsbT sf.mask)
  rw [hsf.2.1] at h1
  have h2 : 0 < 2 ^ payloadBits sf.mask := Nat.pos_pow_of_pos _ (by omega)
  omega

theorem extract_mods_id {sw : String → Nat} {wc : Nat} {sf : SubField}
    (hsf : subFieldWF sw wc sf) (v : Nat) :
    (((v &&& sf.mask) >>> lsbT sf.mask) % 2 ^ 8) % 2 ^ sw sf.name
      = (v &&& sf.mask) >>> lsbT sf.mask := by
  have h1 := extract_lt_payload hsf v
  have h2 : (v &&& sf.mask) >>> lsbT sf.mask < 2 ^ 8 :=
    lt_of_lt_of_le h1 (Nat.pow_le_pow_right (by omega) hsf.2.2.1)
  have h3 : (v &&& sf.mask) >>> lsbT sf.mask < 2 ^ sw sf.name :=
    lt_of_lt_of_le h1 (Nat.pow_le_pow_right (by omega) hsf.2.2.2.1)
  rw [Nat.mod_eq_of_lt h2, Nat.mod_eq_of_lt h3]

theorem isLsbIdx_lsbT_of_wf {sw : String → Nat} {wc : Nat} {sf : SubField}
    (hsf : subFieldWF sw wc sf) : IsLsbIdx sf.mask (lsbT sf.mask) :=
  isLsbIdx_of_ne_zero hsf.1

theorem payload_lt (m : Nat) : m >>> lsbT m < 2 ^ payloadBits m :=
  lt_two_pow_bit_length (m >>> lsbT m)

/-- The element-wise store of `pack` as numpy evaluates it: the expression
`sub_field_array << lsb` is computed in the sub-field column's element type
(`lsb` is a Python scalar and does not widen the result), so the shifted value
wraps at the sub-field element width `sv` before `& mask` is applied.
`packStep` performs the same store with the shift at unbounded precision; the
two differ exactly when the shifted value overflows `sv` bits. -/
def packStepNp (w sv mask lsb a v : Nat) : Nat :=
  ((a &&& npNot w mask) % 2 ^ w |||
    (((v <<< lsb) % 2 ^ sv) &&& mask) % 2 ^ w) % 2 ^ w

/-- When the shift amount plus the stored value's width fit the sub-field
element width, the dtype-wrapped shift does not wrap and the two stores
agree. -/
theorem packStepNp_eq_packStep {v b sv : Nat} (w mask lsb a : Nat)
    (hv : v < 2 ^ b) (hfit : lsb + b ≤ sv) :
    packStepNp w sv mask lsb a v = packStep w mask lsb a v := by
  unfold packStepNp packStep
  have h1 : v <<< lsb < 2 ^ sv := by
    rw [Nat.shiftLeft_eq]
    calc v * 2 ^ lsb < 2 ^ b * 2 ^ lsb :=
          Nat.mul_lt_mul_of_pos_right hv (Nat.pos_pow_of_pos _ (by omega))
      _ = 2 ^ (b + lsb) := (Nat.pow_add 2 b lsb).symm
      _ ≤ 2 ^ sv := Nat.pow_le_pow_right (by omega) (by omega)
  rw [Nat.mod_eq_of_lt h1]

theorem zipWith_congr_right {f g : Nat → Nat → Nat} :
    ∀ l1 l2 : List Nat, (∀ v ∈ l2, ∀ a, f a v = g a v) →
      List.zipWith f l1 l2 = List.zipWith g l1 l2 := by
  intro l1
  induction l1 with
  | nil =>
    intro l2 _
    rfl
  | cons a r ih =>
    intro l2 h
    cases l2 with
    | nil => rfl
    | cons v s =>
      rw [List.zipWith_cons_cons, List.zipWith_cons_cons,
        h v (List.mem_cons_self _ _) a,
        ih s (fun v2 hv2 a2 => h v2 (List.mem_cons_of_mem _ hv2) a2)]

/-- Every value reaching a store has passed `pack`'s validation, so it is at
most `mask >>> lsb`, i.e. below `2 ^ payloadBits mask`; when the mask's shift
amount plus payload width fit the sub-field element width `sv` (the last
`subFieldWF` condition), the dtype-wrapped store and the unbounded-shift store
therefore write identical buffers. -/
theorem pack_store_wrap_agrees {sub_field_array : List Nat} {mask sv : Nat}
    (array : List Nat) (w : Nat)
    (hle : ∀ v ∈ sub_field_array, v ≤ mask >>> lsbT mask)
    (hfit : lsbT mask + payloadBits mask ≤ sv) :
    List.zipWith (packStepNp w sv mask (lsbT mask)) array sub_field_array =
      List.zipWith (packStep w mask (lsbT mask)) array sub_field_array :=
  zipWith_congr_right array sub_field_array (fun v hv a =>
    packStepNp_eq_packStep w mask (lsbT mask) a
      (lt_of_le_of_lt (hle v hv) (payload_lt mask)) hfit)

/-- Success case of `pack` in in-place mode, with the stores expressed through
the dtype-wrapped shift: under the shift-fit condition the model's final buffer
is exactly what numpy's wrapped evaluation produces. -/
theorem pack_inplace_np_ok {sub_field_array : List Nat} {mask sv mx : Nat}
    (array : List Nat) (w : Nat)
    (hmax : listMax sub_field_array = some mx)
    (hle : mx ≤ mask >>> (least_significant_bit mask).toNat)
    (hfit : lsbT mask + payloadBits mask ≤ sv) :
    pack array sub_field_array mask w true =
      (.ok none,
       List.zipWith (packStepNp w sv mask (lsbT mask)) array sub_field_array) := by
  rw [pack_inplace_ok array w hmax hle,
    pack_store_wrap_agrees array w
      (fun v hv => le_trans (listMax_le hmax v hv) hle) hfit]
  rfl

/-- The configurations where numpy's dtype-wrapped shift diverges from the
unbounded-precision model — a mask sitting above the sub-field column width,
here the ninth-bit mask `0x100` over an 8-bit sub-field column inside a 16-bit
container, where numpy computes `1 << 8` in the 8-bit column type and stores
`0` — are excluded by `subFieldWF`: the shift amount plus payload width
exceed the sub-field column width. -/
theorem subFieldWF_excludes_wrapping :
    ¬ subFieldWF (fun _ => 8) 16 ⟨"f", 0x100⟩ ∧
    lsbT 0x100 + payloadBits 0x100 = 9 := by
  decide

theorem unpack_sub_fields_eq_of_loop {data : RecordBatch} {pf : PointFormat}
    {u : RecordBatch}
    (h : unpackLoop pf.composed_fields data data (zeros_like data pf.dtype) =
      (.ok (), data, u)) :
    (unpack_sub_fields data pf).1 = .ok u := by
  unfold unpack_sub_fields
  dsimp only
  rw [h]

theorem repack_sub_fields_eq_of_loop {y : RecordBatch} {pf : PointFormat}
    {r : RecordBatch}
    (h : repackLoop pf.composed_fields (pf.dtype.map (fun p => p.1))
        (zeros_like y pf.dtype) y = (.ok (), r, y)) :
    (repack_sub_fields y pf).1 = .ok r := by
  unfold repack_sub_fields
  dsimp only
  rw [h]

/-- Direction 1 of the round trip: unpacking a well-formed physical batch and
repacking the result restores the original batch. -/
theorem unpack_then_repack_id {P : List (String × Nat)}
    {composed : List (String × List SubField)} {sw : String → Nat} {N : Nat}
    (hN : 0 < N) (hwf : descrWF P composed sw)
    (x : RecordBatch) (hx : batchWF x P N) (hcov : coverOK composed x) :
    ∃ u : RecordBatch,
      (unpack_sub_fields x ⟨expandDtype composed sw P, composed⟩).1 = .ok u ∧
      (repack_sub_fields u ⟨P, composed⟩).1 = .ok x := by
  by_cases hP : P = []
  · subst hP
    have hxnil : x = [] := List.map_eq_nil_iff.mp hx.1
    subst hxnil
    exact ⟨[], rfl, rfl⟩
  · have hPnd := hwf.1
    have hEnd := hwf.2.1
    have hxnames : x.map (fun p => p.1) = P.map Prod.fst := by
      rw [names_eq_schema_names, hx.1]
    have htE : targetsOf composed (x.map (fun p => p.1)) =
        (expandDtype composed sw P).map Prod.fst := by
      rw [hxnames]
      exact targetsOf_eq_expand_names composed sw P
    obtain ⟨u, hU, hschU, hframeU, hfactsU⟩ :=
      unpackLoop_ok composed x x (zeros_like x (expandDtype composed sw P))
        (by
          intro n hn
          rw [htE] at hn
          obtain ⟨w, hw⟩ := exists_width_of_mem_names hn
          exact ⟨⟨w, List.replicate (numRows x) 0⟩, by
            rw [getCol_zeros_like, findW_of_mem_nodup hw hEnd]
            rfl⟩)
        (by rw [htE]; exact hEnd)
    have hsubcol : ∀ {n : String} {cx : Column}, (n, cx) ∈ x →
        ∀ {subs : List SubField}, findComposed composed n = some subs →
        ∀ {sf : SubField}, sf ∈ subs →
        getCol u sf.name =
          some ⟨sw sf.name,
            (unpack cx.data sf.mask 8).map (fun v => v % 2 ^ sw sf.name)⟩ := by
      intro n cx hmem subs hfc sf hsf
      have hnP : (n, cx.width) ∈ P := by
        rw [← hx.1]
        exact List.mem_map_of_mem _ hmem
      have hsfE : (sf.name, sw sf.name) ∈ expandDtype composed sw P :=
        mem_expandDtype_sub hnP hfc hsf
      have hz : getCol (zeros_like x (expandDtype composed sw P)) sf.name =
          some ⟨sw sf.name, List.replicate (numRows x) 0⟩ := by
        rw [getCol_zeros_like, findW_of_mem_nodup hsfE hEnd]
        rfl
      exact (hfactsU (n, cx) hmem).1 subs hfc sf hsf _ hz
    have hplaincol : ∀ {n : String} {cx : Column}, (n, cx) ∈ x →
        findComposed composed n = none →
        getCol u n = some ⟨cx.width, cx.data.map (fun v => v % 2 ^ cx.width)⟩ := by
      intro n cx hmem hfc
      have hnP : (n, cx.width) ∈ P := by
        rw [← hx.1]
        exact List.mem_map_of_mem _ hmem
      have hnE : (n, cx.width) ∈ expandDtype composed sw P :=
        mem_expandDtype_plain hnP hfc
      have hz : getCol (zeros_like x (expandDtype composed sw P)) n =
          some ⟨cx.width, List.replicate (numRows x) 0⟩ := by
        rw [getCol_zeros_like, findW_of_mem_nodup hnE hEnd]
        rfl
      exact (hfactsU (n, cx) hmem).2 hfc
        ⟨cx.width, List.replicate (numRows x) 0⟩ hz
    have hUcol : ∀ {n : String} {w : Nat}, (n, w) ∈ expandDtype composed sw P →
        ∃ c : Column, getCol u n = some c ∧ c.data.length = N := by
      intro n w hnw
      have hn : n ∈ targetsOf composed (x.map (fun p => p.1)) := by
        rw [htE]
        exact List.mem_map_of_mem Prod.fst hnw
      rw [show targetsOf composed (x.map (fun p => p.1)) =
          (x.map (fun p => p.1)).flatMap (targetsOfName composed) from rfl] at hn
      obtain ⟨dim, hdimmem, hnt⟩ := List.mem_flatMap.mp hn
      obtain ⟨e, hex, hedim⟩ := List.mem_map.mp hdimmem
      cases hfcd : findComposed composed e.1 with
      | some subs =>
        have hnt2 : n ∈ subs.map (fun sf => sf.name) := by
          rw [← hedim] at hnt
          unfold targetsOfName at hnt
          rw [hfcd] at hnt
          exact hnt
        obtain ⟨sf, hsf, hsfn⟩ := List.mem_map.mp hnt2
        have hgu := hsubcol hex hfcd hsf
        rw [hsfn] at hgu
        refine ⟨_, hgu, ?_⟩
        show ((unpack e.2.data sf.mask 8).map _).length = N
        rw [List.length_map, unpack_length]
        exact (hx.2 e hex).1
      | none =>
        have hnd2 : n = e.1 := by
          rw [← hedim] at hnt
          unfold targetsOfName at hnt
          rw [hfcd] at hnt
          simpa using hnt
        have hgu := hplaincol hex hfcd
        subst hnd2
        refine ⟨_, hgu, ?_⟩
        show (e.2.data.map _).length = N
        rw [List.length_map]
        exact (hx.2 e hex).1
    have hEne : expandDtype composed sw P ≠ [] := expandDtype_ne_nil hwf hP
    have hnumu : numRows u = N := by
      cases hE : expandDtype composed sw P with
      | nil => exact absurd hE hEne
      | cons e0 E' =>
        obtain ⟨c0, hc0, hl0⟩ := hUcol
          (show (e0.1, e0.2) ∈ expandDtype composed sw P by
            rw [hE]; exact List.mem_cons_self _ _)
        have hschU2 : schemaOf u = (e0.1, e0.2) :: E' := by
          rw [hschU, schemaOf_zeros_like, hE]
        rw [numRows_eq_of_head hschU2 hc0, hl0]
    obtain ⟨r, hR, hschR, hframeR, hfactsR⟩ :=
      repackLoop_ok composed u (P.map (fun p => p.1)) (zeros_like u P)
        hPnd
        (by
          intro n hn
          obtain ⟨w, hw⟩ := exists_width_of_mem_names hn
          exact ⟨⟨w, List.replicate (numRows u) 0⟩, by
            rw [getCol_zeros_like, findW_of_mem_nodup hw hPnd]
            rfl⟩)
        (by
          intro n hn subs hfc sf hsf
          obtain ⟨w, hw⟩ := exists_width_of_mem_names hn
          obtain ⟨cx, hgx, hwx, hlx, hbx⟩ := batchWF_getCol hx hPnd hw
          have hgu := hsubcol (getCol_mem hgx) hfc hsf
          refine ⟨_, hgu, ?_⟩
          have hlen : ((unpack cx.data sf.mask 8).map
              (fun v => v % 2 ^ sw sf.name)).length = N := by
            rw [List.length_map, unpack_length, hlx]
          have hne : ((unpack cx.data sf.mask 8).map
              (fun v => v % 2 ^ sw sf.name)) ≠ [] := by
            intro hc
            rw [hc] at hlen
            simp at hlen
            omega
          obtain ⟨m, hm⟩ := listMax_of_nonempty hne
          refine ⟨m, hm, ?_⟩
          have hmm := listMax_mem hm
          obtain ⟨u0, hu0, hequ⟩ := List.mem_map.mp hmm
          obtain ⟨v, hv, heqv⟩ := mem_unpack hu0
          rw [← hequ, heqv]
          calc ((((v &&& sf.mask) >>> lsbT sf.mask) % 2 ^ 8) % 2 ^ sw sf.name)
              ≤ ((v &&& sf.mask) >>> lsbT sf.mask) % 2 ^ 8 := Nat.mod_le _ _
            _ ≤ (v &&& sf.mask) >>> lsbT sf.mask := Nat.mod_le _ _
            _ ≤ sf.mask >>> lsbT sf.mask := extract_le_max v sf.mask (lsbT sf.mask))
        (by
          intro n hn hfc
          obtain ⟨w, hw⟩ := exists_width_of_mem_names hn
          obtain ⟨cx, hgx, hwx, hlx, hbx⟩ := batchWF_getCol hx hPnd hw
          exact ⟨_, hplaincol (getCol_mem hgx) hfc⟩)
    refine ⟨u, unpack_sub_fields_eq_of_loop hU, ?_⟩
    have hreq : r = x := by
      apply batch_ext
      · rw [hschR, schemaOf_zeros_like, hx.1]
      · rw [names_eq_schema_names, hschR, schemaOf_zeros_like]
        exact hPnd
      · intro n
        by_cases hmem : n ∈ P.map (fun p => p.1)
        · obtain ⟨w, hw⟩ := exists_width_of_mem_names hmem
          obtain ⟨cx, hgx, hwx, hlx, hbx⟩ := batchWF_getCol hx hPnd hw
          subst hwx
          have hz : getCol (zeros_like u P) n =
              some ⟨cx.width, List.replicate (numRows u) 0⟩ := by
            rw [getCol_zeros_like, findW_of_mem_nodup hw hPnd]
            rfl
          cases hfc : findComposed composed n with
          | some subs =>
            obtain ⟨hsubne, hpair, hsfwf⟩ := descr_composed_spec hwf hw hfc
            have hr1 := (hfactsR n hmem).1 subs hfc _ hz
            rw [hr1, hgx]
            show some (⟨cx.width, expectedPacked u cx.width subs
                (List.replicate (numRows u) 0)⟩ : Column) = some cx
            have hcovn : ∀ v ∈ cx.data, v &&& unionMask subs = v := by
              have h := hcov (n, cx) (getCol_mem hgx)
              unfold optionAll at h
              rw [hfc] at h
              exact h
            have hcold : ∀ sf ∈ subs, colData u sf.name =
                cx.data.map (fun v =>
                  (((v &&& sf.mask) >>> lsbT sf.mask) % 2 ^ 8) % 2 ^ sw sf.name) := by
              intro sf hsf
              have hgu := hsubcol (getCol_mem hgx) hfc hsf
              unfold colData
              rw [hgu]
              show (unpack cx.data sf.mask 8).map (fun v => v % 2 ^ sw sf.name) = _
              rw [unpack_eq_map, List.map_map]
              rfl
            have hbase : List.replicate (numRows u) 0 =
                cx.data.map (fun _ => (0 : Nat)) := by
              rw [map_zero_eq_replicate, hlx, hnumu]
            have hcore : expectedPacked u cx.width subs
                (List.replicate (numRows u) 0) = cx.data := by
              unfold expectedPacked
              rw [hbase]
              have hstep1 : subs.foldl (fun d sf =>
                    List.zipWith (packStep cx.width sf.mask (lsbT sf.mask)) d
                      (colData u sf.name))
                    (cx.data.map (fun _ => (0 : Nat)))
                  = subs.foldl (fun d sf =>
                    List.zipWith (packStep cx.width sf.mask (lsbT sf.mask)) d
                      (cx.data.map (fun v =>
                        (((v &&& sf.mask) >>> lsbT sf.mask) % 2 ^ 8)
                          % 2 ^ sw sf.name)))
                    (cx.data.map (fun _ => (0 : Nat))) :=
                List.foldl_ext _ _ _ (fun d sf hsf => by rw [hcold sf hsf])
              have hstep2 := foldl_zipWith_map cx.data subs (fun _ => (0 : Nat))
                (fun sf => packStep cx.width sf.mask (lsbT sf.mask))
                (fun sf v =>
                  (((v &&& sf.mask) >>> lsbT sf.mask) % 2 ^ 8) % 2 ^ sw sf.name)
              rw [hstep1, hstep2]
              have hscalar : ∀ v ∈ cx.data,
                  subs.foldl (fun a sf => packStep cx.width sf.mask (lsbT sf.mask) a
                    ((((v &&& sf.mask) >>> lsbT sf.mask) % 2 ^ 8)
                      % 2 ^ sw sf.name)) 0
                  = v := by
                intro v hv
                have he1 : subs.foldl (fun a sf =>
                      packStep cx.width sf.mask (lsbT sf.mask) a
                        ((((v &&& sf.mask) >>> lsbT sf.mask) % 2 ^ 8)
                          % 2 ^ sw sf.name)) 0
                    = subs.foldl (fun a sf =>
                      packStep cx.width sf.mask (lsbT sf.mask) a
                        ((v &&& sf.mask) >>> lsbT sf.mask)) 0 :=
                  List.foldl_ext _ _ _
                    (fun a sf hsf => by rw [extract_mods_id (hsfwf sf hsf) v])
                rw [he1,
                  scalar_pack_fold cx.width subs 0
                    (fun sf => (v &&& sf.mask) >>> lsbT sf.mask)
                    (Nat.pos_pow_of_pos _ (by omega))
                    (fun sf _ => Nat.zero_and _)
                    (fun sf hsf => (hsfwf sf hsf).2.2.2.2.1)
                    hpair,
                  Nat.zero_or,
                  orFold_extract_eq_and_union subs
                    (fun sf hsf => isLsbIdx_lsbT_of_wf (hsfwf sf hsf)),
                  hcovn v hv]
              have hid : cx.data.map (fun v =>
                  subs.foldl (fun a sf => packStep cx.width sf.mask (lsbT sf.mask) a
                    ((((v &&& sf.mask) >>> lsbT sf.mask) % 2 ^ 8)
                      % 2 ^ sw sf.name)) 0)
                  = cx.data.map (fun v => v) :=
                List.map_congr_left (fun v hv => hscalar v hv)
              rw [hid, List.map_id']
            rw [hcore]
          | none =>
            have hr1 := (hfactsR n hmem).2 hfc _ hz _
              (hplaincol (getCol_mem hgx) hfc)
            rw [hr1, hgx]
            show some (⟨cx.width, (cx.data.map (fun v => v % 2 ^ cx.width)).map
                (fun v => v % 2 ^ cx.width)⟩ : Column) = some cx
            rw [map_mod_of_lt hbx, map_mod_of_lt hbx]
        · rw [hframeR n hmem, getCol_zeros_like]
          have h1 : findW P n = none := (findW_eq_none_iff P n).mpr hmem
          rw [h1]
          have h2 : getCol x n = none := by
            rw [getCol_eq_none_iff, hxnames]
            exact hmem
          rw [h2]
          rfl
    exact repack_sub_fields_eq_of_loop (by rw [hreq] at hR; exact hR)

/-- Direction 2 of the round trip: repacking a well-formed expanded batch and
unpacking the result restores the original batch. -/
theorem repack_then_unpack_id {P : List (String × Nat)}
    {composed : List (String × List SubField)} {sw : String → Nat} {N : Nat}
    (hN : 0 < N) (hwf : descrWF P composed sw)
    (y : RecordBatch) (hy : batchWF y (expandDtype composed sw P) N)
    (hrange : rangeOK composed y) :
    ∃ r : RecordBatch,
      (repack_sub_fields y ⟨P, composed⟩).1 = .ok r ∧
      (unpack_sub_fields r ⟨expandDtype composed sw P, composed⟩).1 = .ok y := by
  by_cases hP : P = []
  · subst hP
    have hynil : y = [] := List.map_eq_nil_iff.mp hy.1
    subst hynil
    exact ⟨[], rfl, rfl⟩
  · have hPnd := hwf.1
    have hEnd := hwf.2.1
    have hEne : expandDtype composed sw P ≠ [] := expandDtype_ne_nil hwf hP
    have hny : numRows y = N :=
      numRows_eq hy.1 (fun p hp => (hy.2 p hp).1) hEne
    obtain ⟨r, hR, hschR, hframeR, hfactsR⟩ :=
      repackLoop_ok composed y (P.map (fun p => p.1)) (zeros_like y P)
        hPnd
        (by
          intro n hn
          obtain ⟨w, hw⟩ := exists_width_of_mem_names hn
          exact ⟨⟨w, List.replicate (numRows y) 0⟩, by
            rw [getCol_zeros_like, findW_of_mem_nodup hw hPnd]
            rfl⟩)
        (by
          intro n hn subs hfc sf hsf
          obtain ⟨w, hw⟩ := exists_width_of_mem_names hn
          have hsfE : (sf.name, sw sf.name) ∈ expandDtype composed sw P :=
            mem_expandDtype_sub hw hfc hsf
          obtain ⟨col, hcol, hcw, hcl, hcb⟩ := batchWF_getCol hy hEnd hsfE
          refine ⟨col, hcol, ?_⟩
          have hnecol : col.data ≠ [] := by
            intro hc
            rw [hc] at hcl
            simp at hcl
            omega
          obtain ⟨m, hm⟩ := listMax_of_nonempty hnecol
          refine ⟨m, hm, ?_⟩
          have hr2 := hrange (n, subs) (findComposed_some_mem hfc) sf hsf
          unfold optionAll at hr2
          rw [hcol] at hr2
          exact hr2 m (listMax_mem hm))
        (by
          intro n hn hfc
          obtain ⟨w, hw⟩ := exists_width_of_mem_names hn
          have hnE : (n, w) ∈ expandDtype composed sw P :=
            mem_expandDtype_plain hw hfc
          obtain ⟨col, hcol, h1, h2, h3⟩ := batchWF_getCol hy hEnd hnE
          exact ⟨col, hcol⟩)
    have hschr : schemaOf r = P := by
      rw [hschR, schemaOf_zeros_like]
    have hrnames : r.map (fun p => p.1) = P.map Prod.fst := by
      rw [names_eq_schema_names, hschr]
    have htE : targetsOf composed (r.map (fun p => p.1)) =
        (expandDtype composed sw P).map Prod.fst := by
      rw [hrnames]
      exact targetsOf_eq_expand_names composed sw P
    obtain ⟨u2, hU2, hschU2, hframeU2, hfactsU2⟩ :=
      unpackLoop_ok composed r r (zeros_like r (expandDtype composed sw P))
        (by
          intro n hn
          rw [htE] at hn
          obtain ⟨w, hw⟩ := exists_width_of_mem_names hn
          exact ⟨⟨w, List.replicate (numRows r) 0⟩, by
            rw [getCol_zeros_like, findW_of_mem_nodup hw hEnd]
            rfl⟩)
        (by rw [htE]; exact hEnd)
    refine ⟨r, repack_sub_fields_eq_of_loop hR, ?_⟩
    have hueq : u2 = y := by
      apply batch_ext
      · rw [hschU2, schemaOf_zeros_like, hy.1]
      · rw [names_eq_schema_names, hschU2, schemaOf_zeros_like]
        exact hEnd
      · intro n
        by_cases hmem : n ∈ (expandDtype composed sw P).map Prod.fst
        · obtain ⟨wE, hwE⟩ := exists_width_of_mem_names hmem
          obtain ⟨cy, hgy, hcyw, hcyl, hcyb⟩ := batchWF_getCol hy hEnd hwE
          subst hcyw
          have hn2 : n ∈ targetsOf composed (P.map Prod.fst) := by
            rw [targetsOf_eq_expand_names composed sw P]
            exact hmem
          rw [show targetsOf composed (P.map Prod.fst) =
              (P.map Prod.fst).flatMap (targetsOfName composed) from rfl] at hn2
          obtain ⟨dim, hdimmem, hnt⟩ := List.mem_flatMap.mp hn2
          obtain ⟨wdim, hwdim⟩ := exists_width_of_mem_names hdimmem
          have hzP : getCol (zeros_like y P) dim =
              some ⟨wdim, List.replicate (numRows y) 0⟩ := by
            rw [getCol_zeros_like, findW_of_mem_nodup hwdim hPnd]
            rfl
          cases hfcd : findComposed composed dim with
          | some subs =>
            obtain ⟨hsubne, hpair, hsfwf⟩ := descr_composed_spec hwf hwdim hfcd
            have hnt2 : n ∈ subs.map (fun sf => sf.name) := by
              unfold targetsOfName at hnt
              rw [hfcd] at hnt
              exact hnt
            obtain ⟨sf, hsf, hsfn⟩ := List.mem_map.mp hnt2
            have hgr := (hfactsR dim hdimmem).1 subs hfcd _ hzP
            have hswn : sw sf.name = cy.width :=
              width_unique (hsfn ▸ mem_expandDtype_sub hwdim hfcd hsf) hwE hEnd
            have hbase : List.replicate (numRows y) 0 =
                (List.range N).map (fun _ => (0 : Nat)) := by
              rw [map_zero_eq_replicate, List.length_range, hny]
            have hcold2 : ∀ sf2 ∈ subs, colData y sf2.name =
                (List.range N).map (fun i => (colData y sf2.name).getD i 0) := by
              intro sf2 hsf2
              have hsfE2 : (sf2.name, sw sf2.name) ∈ expandDtype composed sw P :=
                mem_expandDtype_sub hwdim hfcd hsf2
              obtain ⟨cs, hcs, hcsw, hcsl, hcsb⟩ := batchWF_getCol hy hEnd hsfE2
              have hdata : colData y sf2.name = cs.data := by
                unfold colData
                rw [hcs]
                rfl
              conv_lhs => rw [hdata, eq_range_map_getD cs.data]
              rw [hcsl, hdata]
            have hcore : expectedPacked y wdim subs
                (List.replicate (numRows y) 0) =
                (List.range N).map (fun i =>
                  orFold subs (fun sf2 => (colData y sf2.name).getD i 0)) := by
              unfold expectedPacked
              rw [hbase]
              have hstep1 : subs.foldl (fun d sf2 =>
                    List.zipWith (packStep wdim sf2.mask (lsbT sf2.mask)) d
                      (colData y sf2.name))
                    ((List.range N).map (fun _ => (0 : Nat)))
                  = subs.foldl (fun d sf2 =>
                    List.zipWith (packStep wdim sf2.mask (lsbT sf2.mask)) d
                      ((List.range N).map
                        (fun i => (colData y sf2.name).getD i 0)))
                    ((List.range N).map (fun _ => (0 : Nat))) :=
                List.foldl_ext _ _ _ (fun d sf2 hsf2 => by
                  rw [← hcold2 sf2 hsf2])
              have hstep2 := foldl_zipWith_map (List.range N) subs
                (fun _ => (0 : Nat))
                (fun sf2 => packStep wdim sf2.mask (lsbT sf2.mask))
                (fun sf2 i => (colData y sf2.name).getD i 0)
              rw [hstep1, hstep2]
              apply List.map_congr_left
              intro i hi
              rw [scalar_pack_fold wdim subs 0
                  (fun sf2 => (colData y sf2.name).getD i 0)
                  (Nat.pos_pow_of_pos _ (by omega))
                  (fun sf2 _ => Nat.zero_and _)
                  (fun sf2 hsf2 => (hsfwf sf2 hsf2).2.2.2.2.1)
                  hpair,
                Nat.zero_or]
            have hmemr := getCol_mem hgr
            have hzE : getCol (zeros_like r (expandDtype composed sw P)) sf.name
                = some ⟨sw sf.name, List.replicate (numRows r) 0⟩ := by
              rw [getCol_zeros_like,
                findW_of_mem_nodup (mem_expandDtype_sub hwdim hfcd hsf) hEnd]
              rfl
            have hgu2 := (hfactsU2 _ hmemr).1 subs hfcd sf hsf _ hzE
            have hunp2 : unpack (expectedPacked y wdim subs
                (List.replicate (numRows y) 0)) sf.mask 8 = cy.data := by
              rw [hcore, unpack_eq_map, List.map_map]
              have hpt : ∀ i ∈ List.range N,
                  ((fun s => ((s &&& sf.mask) >>> lsbT sf.mask) % 2 ^ 8) ∘
                    (fun i => orFold subs
                      (fun sf2 => (colData y sf2.name).getD i 0))) i
                  = cy.data.getD i 0 := by
                intro i hi
                have hiN : i < N := List.mem_range.mp hi
                have hvloc : (colData y sf.name).getD i 0 = cy.data.getD i 0 := by
                  unfold colData
                  rw [hsfn, hgy]
                  rfl
                have hvmem : cy.data.getD i 0 ∈ cy.data :=
                  getD_mem_of_lt (by rw [hcyl]; exact hiN)
                have hvle : cy.data.getD i 0 ≤ sf.mask >>> lsbT sf.mask := by
                  have hr2 := hrange (dim, subs) (findComposed_some_mem hfcd) sf hsf
                  unfold optionAll at hr2
                  rw [hsfn, hgy] at hr2
                  exact hr2 _ hvmem
                have hvlt : cy.data.getD i 0 < 2 ^ payloadBits sf.mask := by
                  rw [(hsfwf sf hsf).2.1] at hvle
                  have h2 : 0 < 2 ^ payloadBits sf.mask :=
                    Nat.pos_pow_of_pos _ (by omega)
                  omega
                show (((orFold subs (fun sf2 => (colData y sf2.name).getD i 0))
                    &&& sf.mask) >>> lsbT sf.mask) % 2 ^ 8 = cy.data.getD i 0
                rw [orFold_and_mask (fun sf2 => (colData y sf2.name).getD i 0)
                    hsf hpair]
                show ((((colData y sf.name).getD i 0 <<< lsbT sf.mask)
                    &&& sf.mask) >>> lsbT sf.mask) % 2 ^ 8 = cy.data.getD i 0
                rw [hvloc,
                  inject_extract (isLsbIdx_lsbT_of_wf (hsfwf sf hsf))
                    (hsfwf sf hsf).2.1 hvlt,
                  Nat.mod_eq_of_lt (lt_of_lt_of_le hvlt
                    (Nat.pow_le_pow_right (by omega) (hsfwf sf hsf).2.2.1))]
              rw [List.map_congr_left hpt, ← hcyl, ← eq_range_map_getD]
            rw [← hsfn]
            have hgy2 : getCol y sf.name = some cy := by
              rw [hsfn]
              exact hgy
            rw [hgu2, hgy2]
            show some (⟨sw sf.name, (unpack (expectedPacked y wdim subs
                (List.replicate (numRows y) 0)) sf.mask 8).map
                (fun v => v % 2 ^ sw sf.name)⟩ : Column) = some cy
            rw [hunp2, hswn, map_mod_of_lt hcyb]
          | none =>
            have hdimn : n = dim := by
              unfold targetsOfName at hnt
              rw [hfcd] at hnt
              simpa using hnt
            subst hdimn
            have hwdE : (n, wdim) ∈ expandDtype composed sw P :=
              mem_expandDtype_plain hwdim hfcd
            have hww : wdim = cy.width := width_unique hwdE hwE hEnd
            subst hww
            have hgr := (hfactsR n hdimmem).2 hfcd _ hzP _ hgy
            have hmap1 : cy.data.map (fun v => v % 2 ^ cy.width) = cy.data :=
              map_mod_of_lt hcyb
            have hmemr := getCol_mem hgr
            have hzE : getCol (zeros_like r (expandDtype composed sw P)) n =
                some ⟨cy.width, List.replicate (numRows r) 0⟩ := by
              rw [getCol_zeros_like, findW_of_mem_nodup hwE hEnd]
              rfl
            have hgu2 := (hfactsU2 _ hmemr).2 hfcd _ hzE
            rw [hgu2, hgy]
            show some (⟨cy.width, (cy.data.map (fun v => v % 2 ^ cy.width)).map
                (fun v => v % 2 ^ cy.width)⟩ : Column) = some cy
            rw [hmap1, hmap1]
        · have h1 : getCol u2 n =
              getCol (zeros_like r (expandDtype composed sw P)) n := by
            apply hframeU2
            rw [htE]
            exact hmem
          rw [h1, getCol_zeros_like,
            (findW_eq_none_iff (expandDtype composed sw P) n).mpr hmem]
          have h2 : getCol y n = none := by
            rw [getCol_eq_none_iff, names_eq_schema_names, hy.1]
            exact hmem
          rw [h2]
          rfl
    exact unpack_sub_fields_eq_of_loop (by rw [hueq] at hU2; exact hU2)

instance (b : RecordBatch) (dt : List (String × Nat)) (N : Nat) :
    Decidable (batchWF b dt N) := by
  unfold batchWF
  infer_instance

instance (P : List (String × Nat)) (composed : List (String × List SubField))
    (sw : String → Nat) : Decidable (descrWF P composed sw) := by
  unfold descrWF
  infer_instance

instance (composed : List (String × List SubField)) (b : RecordBatch) :
    Decidable (coverOK composed b) := by
  unfold coverOK
  infer_instance

instance (composed : List (String × List SubField)) (y : RecordBatch) :
    Decidable (rangeOK composed y) := by
  unfold rangeOK
  infer_instance

/-- C2 (corrected): the round trip of the record codec.  As literally stated
the claim is false (see the counterexample): disjointness and in-range values
alone do not make `unpack_sub_fields` and `repack_sub_fields` mutually inverse.
Under the full conditions the code needs — a descriptor with unambiguous
physical and expanded schemas whose composed fields carry nonempty lists of
mutually disjoint *contiguous* sub-field masks, each payload fitting the 8-bit
intermediate of `unpack`, the sub-field column width, and the composed column
width; a nonzero row count; in-width values; composed columns covered by their
sub-field mask union; and sub-field columns respecting each mask's maximum —
repacking after unpacking restores the physical batch `x`, and unpacking after
repacking restores the expanded batch `y`. -/
theorem round_trip_sub_fields (P : List (String × Nat))
    (composed : List (String × List SubField)) (sw : String → Nat) (N : Nat)
    (x y : RecordBatch) (hN : 0 < N) (hwf : descrWF P composed sw)
    (hx : batchWF x P N) (hcov : coverOK composed x)
    (hy : batchWF y (expandDtype composed sw P) N)
    (hrange : rangeOK composed y) :
    (∃ u : RecordBatch,
      (unpack_sub_fields x ⟨expandDtype composed sw P, composed⟩).1 = .ok u ∧
      (repack_sub_fields u ⟨P, composed⟩).1 = .ok x) ∧
    (∃ r : RecordBatch,
      (repack_sub_fields y ⟨P, composed⟩).1 = .ok r ∧
      (unpack_sub_fields r ⟨expandDtype composed sw P, composed⟩).1 = .ok y) :=
  ⟨unpack_then_repack_id hN hwf x hx hcov,
   repack_then_unpack_id hN hwf y hy hrange⟩

/-- Witness: the corrected round-trip theorem applied to a concrete
two-sub-field composed column plus a plain column, with one record. -/
theorem round_trip_sub_fields_witness :
    (0 < 1 ∧
      descrWF [("c", 8), ("p", 8)] [("c", [⟨"lo", 15⟩, ⟨"hi", 240⟩])]
        (fun _ => 8) ∧
      batchWF [("c", ⟨8, [181]⟩), ("p", ⟨8, [42]⟩)] [("c", 8), ("p", 8)] 1 ∧
      coverOK [("c", [⟨"lo", 15⟩, ⟨"hi", 240⟩])]
        [("c", ⟨8, [181]⟩), ("p", ⟨8, [42]⟩)] ∧
      batchWF [("lo", ⟨8, [5]⟩), ("hi", ⟨8, [11]⟩), ("p", ⟨8, [7]⟩)]
        (expandDtype [("c", [⟨"lo", 15⟩, ⟨"hi", 240⟩])] (fun _ => 8)
          [("c", 8), ("p", 8)]) 1 ∧
      rangeOK [("c", [⟨"lo", 15⟩, ⟨"hi", 240⟩])]
        [("lo", ⟨8, [5]⟩), ("hi", ⟨8, [11]⟩), ("p", ⟨8, [7]⟩)]) ∧
    ((∃ u : RecordBatch,
      (unpack_sub_fields [("c", ⟨8, [181]⟩), ("p", ⟨8, [42]⟩)]
        ⟨expandDtype [("c", [⟨"lo", 15⟩, ⟨"hi", 240⟩])] (fun _ => 8)
          [("c", 8), ("p", 8)],
         [("c", [⟨"lo", 15⟩, ⟨"hi", 240⟩])]⟩).1 = .ok u ∧
      (repack_sub_fields u
        ⟨[("c", 8), ("p", 8)], [("c", [⟨"lo", 15⟩, ⟨"hi", 240⟩])]⟩).1 =
        .ok [("c", ⟨8, [181]⟩), ("p", ⟨8, [42]⟩)]) ∧
    (∃ r : RecordBatch,
      (repack_sub_fields [("lo", ⟨8, [5]⟩), ("hi", ⟨8, [11]⟩), ("p", ⟨8, [7]⟩)]
        ⟨[("c", 8), ("p", 8)], [("c", [⟨"lo", 15⟩, ⟨"hi", 240⟩])]⟩).1 =
        .ok r ∧
      (unpack_sub_fields r
        ⟨expandDtype [("c", [⟨"lo", 15⟩, ⟨"hi", 240⟩])] (fun _ => 8)
          [("c", 8), ("p", 8)],
         [("c", [⟨"lo", 15⟩, ⟨"hi", 240⟩])]⟩).1 =
        .ok [("lo", ⟨8, [5]⟩), ("hi", ⟨8, [11]⟩), ("p", ⟨8, [7]⟩)])) :=
  ⟨⟨by decide, by decide, by decide, by decide, by decide, by decide⟩,
   round_trip_sub_fields [("c", 8), ("p", 8)]
     [("c", [⟨"lo", 15⟩, ⟨"hi", 240⟩])] (fun _ => 8) 1
     [("c", ⟨8, [181]⟩), ("p", ⟨8, [42]⟩)]
     [("lo", ⟨8, [5]⟩), ("hi", ⟨8, [11]⟩), ("p", ⟨8, [7]⟩)]
     (by decide) (by decide) (by decide) (by decide) (by decide) (by decide)⟩

end Pylas
